import Mathlib

/-!
Verification of the FoodVision training-control logic.

Shallow embedding of the freeze/unfreeze policy, discriminative learning-rate
grouping (src/src/models.py), the epoch-level metric aggregation,
checkpoint/early-stopping controller, seeding, and checkpoint persistence
(src/src/train.py).  Machine floats are modelled as rationals; the in-place
`requires_grad` mutation is modelled as explicit state passing on boolean
masks; Python sequence semantics (`range`, negative indexing raising
`IndexError`) are modelled faithfully.
-/

/-- Python `range(a, b)` over integers: the list `[a, a+1, ..., b-1]` (empty when `b <= a`). -/
def pyRangeList (a b : Int) : List Int :=
  (List.range (b - a).toNat).map (fun k => a + Int.ofNat k)

/-- Python sequence indexing for a sequence of length `total`: a nonnegative index
`0 <= i < total` addresses position `i`, a negative index `-total <= i < 0` wraps to
`i + total`, and anything else raises `IndexError` (modelled as `none`). -/
def pyIndex (total : Nat) (i : Int) : Option Nat :=
  if 0 ≤ i ∧ i < (total : Int) then some i.toNat
  else if -(total : Int) ≤ i ∧ i < 0 then some (i + (total : Int)).toNat
  else none

/-- A Python `for i in L` loop whose body indexes a sequence of length `total` at `i` and
updates an accumulator with the resolved position; an out-of-range index raises. -/
def pyFold {α : Type} (total : Nat) (g : α → Nat → α) (L : List Int) (init : α) :
    Except String α :=
  L.foldlM
    (fun acc ii =>
      match pyIndex total ii with
      | some i => Except.ok (g acc i)
      | none => Except.error "IndexError: index out of range")
    init

/-- Trainability state of a `FoodVisionModel` (src/src/models.py): the `requires_grad`
flags of the parameters of each backbone block `backbone.features[i]`, and of the
parameters of the replaced classifier head `backbone.classifier`. -/
structure ModelState where
  blocks : List (List Bool)
  head : List Bool
deriving Repr, DecidableEq

/-- Flags of the parameters of backbone block `i` (empty off the end of the model). -/
def blockFlags (m : ModelState) (i : Nat) : List Bool :=
  (m.blocks[i]?).getD []

/-- The `requires_grad` flag of parameter `j` of backbone block `i` (`false` off the model). -/
def ModelState.trainAt (m : ModelState) (i j : Nat) : Bool :=
  ((blockFlags m i)[j]?).getD false

/-- The `requires_grad` flag of classifier-head parameter `j`. -/
def ModelState.headAt (m : ModelState) (j : Nat) : Bool :=
  (m.head[j]?).getD false

/-- `FoodVisionModel.freeze_backbone` (models.py lines 67-73): sets `requires_grad = False`
on every parameter of `backbone.features`; classifier-head parameters are untouched. -/
def freeze_backbone (m : ModelState) : ModelState :=
  { m with blocks := m.blocks.map (fun b => b.map (fun _ => false)) }

/-- `FoodVisionModel.unfreeze_backbone` (models.py lines 75-81): sets `requires_grad = True`
on every parameter of `backbone.features`; classifier-head parameters are untouched. -/
def unfreeze_backbone (m : ModelState) : ModelState :=
  { m with blocks := m.blocks.map (fun b => b.map (fun _ => true)) }

/-- The inner loop `for param in self.backbone.features[i].parameters():
param.requires_grad = True`: sets every flag of block `i` to `true`. -/
def setBlockTrue : List (List Bool) → Nat → List (List Bool)
  | [], _ => []
  | b :: bs, 0 => b.map (fun _ => true) :: bs
  | b :: bs, i + 1 => b :: setBlockTrue bs i

/-- `FoodVisionModel.unfreeze_last_blocks` (models.py lines 83-102): first re-applies
`freeze_backbone`, then runs `for i in range(total_blocks - num_blocks, total_blocks)`
setting every parameter of `self.backbone.features[i]` trainable, with Python `range`
and (possibly negative, possibly raising) Python indexing semantics. -/
def unfreeze_last_blocks (m : ModelState) (num_blocks : Nat) : Except String ModelState :=
  let m1 := freeze_backbone m
  let total := m1.blocks.length
  (pyFold total setBlockTrue
      (pyRangeList ((total : Int) - (num_blocks : Int)) (total : Int)) m1.blocks).map
    (fun bs => { m1 with blocks := bs })

/-- Mask in which the blocks at absolute index at least `cut` are fully trainable and all
other blocks fully frozen, walking the block list from offset `k`. -/
def tailUnfrozen (cut : Nat) : Nat → List (List Bool) → List (List Bool)
  | _, [] => []
  | k, b :: bs => b.map (fun _ => decide (cut ≤ k)) :: tailUnfrozen cut (k + 1) bs

theorem tailUnfrozen_getElem? (cut : Nat) :
    ∀ (bs : List (List Bool)) (k i : Nat),
      (tailUnfrozen cut k bs)[i]? = bs[i]?.map (fun b => b.map (fun _ => decide (cut ≤ k + i))) := by
  intro bs
  induction bs with
  | nil => intro k i; simp [tailUnfrozen]
  | cons b bs ih =>
    intro k i
    cases i with
    | zero => simp [tailUnfrozen]
    | succ i =>
      have h := ih (k + 1) i
      simp only [tailUnfrozen, List.getElem?_cons_succ]
      rw [h]
      have : k + 1 + i = k + (i + 1) := by omega
      rw [this]

theorem tailUnfrozen_length (cut : Nat) :
    ∀ (bs : List (List Bool)) (k : Nat), (tailUnfrozen cut k bs).length = bs.length := by
  intro bs
  induction bs with
  | nil => intro k; rfl
  | cons b bs ih => intro k; simp [tailUnfrozen, ih]

theorem setBlockTrue_getElem? :
    ∀ (bs : List (List Bool)) (n i : Nat),
      (setBlockTrue bs n)[i]? =
        if i = n then bs[i]?.map (fun b => b.map (fun _ => true)) else bs[i]? := by
  intro bs
  induction bs with
  | nil => intro n i; simp [setBlockTrue]
  | cons b bs ih =>
    intro n i
    cases n with
    | zero =>
      cases i with
      | zero => simp [setBlockTrue]
      | succ i => simp [setBlockTrue]
    | succ n =>
      cases i with
      | zero => simp [setBlockTrue]
      | succ i =>
        simp only [setBlockTrue, List.getElem?_cons_succ]
        rw [ih n i]
        by_cases h : i = n
        · rw [if_pos h, if_pos (by omega : i + 1 = n + 1)]
        · rw [if_neg h, if_neg (by omega : ¬ (i + 1 = n + 1))]

theorem foldl_setBlockTrue_getElem? :
    ∀ (js : List Nat) (bs : List (List Bool)) (i : Nat),
      (js.foldl setBlockTrue bs)[i]? =
        if i ∈ js then bs[i]?.map (fun b => b.map (fun _ => true)) else bs[i]? := by
  intro js
  induction js with
  | nil => intro bs i; simp
  | cons j js ih =>
    intro bs i
    rw [List.foldl_cons, ih, setBlockTrue_getElem?]
    by_cases hmem : i ∈ js
    · rw [if_pos hmem, if_pos (List.mem_cons.mpr (Or.inr hmem))]
      by_cases hij : i = j
      · rw [if_pos hij]
        cases h : bs[i]? with
        | none => rfl
        | some b =>
          show some ((b.map (fun _ => true)).map (fun _ => true)) = some (b.map (fun _ => true))
          rw [List.map_map]
          rfl
      · rw [if_neg hij]
    · rw [if_neg hmem]
      by_cases hij : i = j
      · rw [if_pos hij, if_pos (List.mem_cons.mpr (Or.inl hij))]
      · rw [if_neg hij,
          if_neg (fun hc => (List.mem_cons.mp hc).elim hij hmem)]

theorem exceptOkBind {α β : Type} (x : α) (f : α → Except String β) :
    (Except.ok x >>= f) = f x := rfl

instance exceptDecidableEq {ε α : Type} [DecidableEq ε] [DecidableEq α] :
    DecidableEq (Except ε α) := fun x y =>
  match x, y with
  | Except.ok a, Except.ok b =>
    if h : a = b then isTrue (by rw [h]) else isFalse (fun hc => h (Except.ok.inj hc))
  | Except.error a, Except.error b =>
    if h : a = b then isTrue (by rw [h]) else isFalse (fun hc => h (Except.error.inj hc))
  | Except.ok _, Except.error _ => isFalse (fun hc => Except.noConfusion hc)
  | Except.error _, Except.ok _ => isFalse (fun hc => Except.noConfusion hc)

theorem pyFold_ok {α : Type} (total : Nat) (g : α → Nat → α) :
    ∀ (ns : List Nat), (∀ n ∈ ns, n < total) → ∀ (init : α),
      pyFold total g (ns.map (fun n : Nat => (n : Int))) init = Except.ok (ns.foldl g init) := by
  intro ns
  induction ns with
  | nil => intro _ init; rfl
  | cons n ns ih =>
    intro h init
    have hn : n < total := h n (List.mem_cons_self n ns)
    have hidx : pyIndex total (n : Int) = some n := by
      simp only [pyIndex]
      rw [if_pos ⟨Int.ofNat_nonneg n, by exact_mod_cast hn⟩]
      simp
    simp only [pyFold, List.map_cons, List.foldlM_cons, hidx]
    rw [exceptOkBind]
    exact ih (fun x hx => h x (List.mem_cons_of_mem n hx)) (g init n)

theorem pyRangeList_natCast (a b : Nat) :
    pyRangeList (a : Int) (b : Int) =
      ((List.range (b - a)).map (fun k => a + k)).map (fun n : Nat => (n : Int)) := by
  simp only [pyRangeList]
  have h1 : ((b : Int) - (a : Int)).toNat = b - a := by omega
  rw [h1, List.map_map]
  apply List.map_congr_left
  intro k _
  simp only [Function.comp, Int.ofNat_eq_natCast]
  push_cast
  ring

theorem unfreeze_last_blocks_ok (m : ModelState) (n : Nat) (h : n ≤ m.blocks.length) :
    unfreeze_last_blocks m n =
      Except.ok ⟨tailUnfrozen (m.blocks.length - n) 0 m.blocks, m.head⟩ := by
  have hlen : (freeze_backbone m).blocks.length = m.blocks.length := by
    simp [freeze_backbone]
  have hcast : (m.blocks.length : Int) - (n : Int) = ((m.blocks.length - n : Nat) : Int) := by
    omega
  have hrange : pyRangeList ((m.blocks.length : Int) - (n : Int)) (m.blocks.length : Int) =
      ((List.range (m.blocks.length - (m.blocks.length - n))).map
        (fun k => (m.blocks.length - n) + k)).map (fun x : Nat => (x : Int)) := by
    rw [hcast]; exact pyRangeList_natCast (m.blocks.length - n) m.blocks.length
  have hbound : ∀ x ∈ (List.range (m.blocks.length - (m.blocks.length - n))).map
      (fun k => (m.blocks.length - n) + k), x < m.blocks.length := by
    intro x hx
    rcases List.mem_map.mp hx with ⟨k, hk, rfl⟩
    have := List.mem_range.mp hk
    omega
  have hfold := pyFold_ok m.blocks.length setBlockTrue
    ((List.range (m.blocks.length - (m.blocks.length - n))).map
      (fun k => (m.blocks.length - n) + k)) hbound
    (freeze_backbone m).blocks
  have hblocks : List.foldl setBlockTrue (freeze_backbone m).blocks
      ((List.range (m.blocks.length - (m.blocks.length - n))).map
        (fun k => (m.blocks.length - n) + k)) =
      tailUnfrozen (m.blocks.length - n) 0 m.blocks := by
    apply List.ext_getElem?
    intro i
    rw [foldl_setBlockTrue_getElem?, tailUnfrozen_getElem?]
    have hmem : i ∈ (List.range (m.blocks.length - (m.blocks.length - n))).map
        (fun k => (m.blocks.length - n) + k) ↔
        (m.blocks.length - n ≤ i ∧ i < m.blocks.length) := by
      constructor
      · intro hx
        rcases List.mem_map.mp hx with ⟨k, hk, rfl⟩
        have := List.mem_range.mp hk
        omega
      · intro hx
        exact List.mem_map.mpr
          ⟨i - (m.blocks.length - n), List.mem_range.mpr (by omega), by omega⟩
    have hfz : (freeze_backbone m).blocks[i]? =
        m.blocks[i]?.map (fun b => b.map (fun _ => false)) := by
      simp [freeze_backbone, List.getElem?_map]
    by_cases hin : m.blocks.length - n ≤ i ∧ i < m.blocks.length
    · rw [if_pos (hmem.mpr hin), hfz]
      have hd : (decide (m.blocks.length - n ≤ 0 + i)) = true := by
        simp only [decide_eq_true_eq]; omega
      rw [hd]
      cases m.blocks[i]? with
      | none => rfl
      | some b =>
        show some ((b.map (fun _ => false)).map (fun _ => true)) =
          some (b.map (fun _ => true))
        rw [List.map_map]
        rfl
    · rw [if_neg (fun hx => hin (hmem.mp hx)), hfz]
      by_cases hlt : i < m.blocks.length
      · have hd : (decide (m.blocks.length - n ≤ 0 + i)) = false := by
          simp only [decide_eq_false_iff_not]; omega
        rw [hd]
      · have h1 : m.blocks[i]? = none := List.getElem?_eq_none (by omega)
        rw [h1]
        rfl
  simp only [unfreeze_last_blocks, hlen, hrange, hfold, Except.map, hblocks]
  rfl

theorem tailUnfrozen_idem (c2 c1 : Nat) :
    ∀ (bs : List (List Bool)) (k : Nat),
      tailUnfrozen c2 k (tailUnfrozen c1 k bs) = tailUnfrozen c2 k bs := by
  intro bs
  induction bs with
  | nil => intro k; rfl
  | cons b bs ih =>
    intro k
    simp only [tailUnfrozen]
    rw [List.map_map, ih (k + 1)]
    rfl

theorem trainAt_tailUnfrozen (m : ModelState) (cut i j : Nat)
    (hi : i < m.blocks.length) (hj : j < (blockFlags m i).length) :
    (ModelState.mk (tailUnfrozen cut 0 m.blocks) m.head).trainAt i j = decide (cut ≤ i) := by
  have h1 : m.blocks[i]? = some (m.blocks[i]) := List.getElem?_eq_getElem hi
  have hflags : blockFlags m i = m.blocks[i] := by
    unfold blockFlags
    rw [h1]
    rfl
  show (((tailUnfrozen cut 0 m.blocks)[i]?.getD [])[j]?).getD false = decide (cut ≤ i)
  rw [tailUnfrozen_getElem?, h1]
  show (((m.blocks[i]).map (fun _ => decide (cut ≤ 0 + i)))[j]?).getD false = decide (cut ≤ i)
  rw [List.getElem?_map]
  have hj2 : j < (m.blocks[i]).length := by rw [← hflags]; exact hj
  rw [List.getElem?_eq_getElem hj2]
  show decide (cut ≤ 0 + i) = decide (cut ≤ i)
  rw [Nat.zero_add]

/-- C1: for 0 <= n <= total_blocks and any prior trainability state whose head parameters
are all trainable, `unfreeze_last_blocks n` succeeds and produces a state in which a
backbone parameter is trainable exactly when its block index is at least
`total_blocks - n` (the last `n` blocks), the classifier head is unchanged and still
fully trainable, the parameter-shape of the model is preserved, the operation is
idempotent under repetition with the same `n`, and a later call with any valid `n2`
yields exactly the same result as calling it on the original state (non-cumulative). -/
theorem claim_C1 (m : ModelState) (n : Nat)
    (hn : n ≤ m.blocks.length)
    (hhead : ∀ j, j < m.head.length → m.headAt j = true) :
    ∃ m', unfreeze_last_blocks m n = Except.ok m' ∧
      m'.blocks.length = m.blocks.length ∧
      (∀ i, (blockFlags m' i).length = (blockFlags m i).length) ∧
      (∀ i j, i < m.blocks.length → j < (blockFlags m i).length →
        (m'.trainAt i j = true ↔ m.blocks.length - n ≤ i)) ∧
      m'.head = m.head ∧
      (∀ j, j < m'.head.length → m'.headAt j = true) ∧
      unfreeze_last_blocks m' n = Except.ok m' ∧
      (∀ n2, n2 ≤ m.blocks.length →
        unfreeze_last_blocks m' n2 = unfreeze_last_blocks m n2) := by
  refine ⟨⟨tailUnfrozen (m.blocks.length - n) 0 m.blocks, m.head⟩,
    unfreeze_last_blocks_ok m n hn, tailUnfrozen_length _ m.blocks 0, ?_, ?_, rfl, ?_, ?_, ?_⟩
  · intro i
    show (((tailUnfrozen (m.blocks.length - n) 0 m.blocks)[i]?).getD []).length =
      ((m.blocks[i]?).getD []).length
    rw [tailUnfrozen_getElem?]
    cases m.blocks[i]? with
    | none => rfl
    | some b => simp
  · intro i j hi hj
    rw [trainAt_tailUnfrozen m (m.blocks.length - n) i j hi hj]
    simp
  · intro j hj
    exact hhead j hj
  · have hl : (ModelState.mk (tailUnfrozen (m.blocks.length - n) 0 m.blocks) m.head).blocks.length
        = m.blocks.length := tailUnfrozen_length _ m.blocks 0
    rw [unfreeze_last_blocks_ok _ n (by rw [hl]; exact hn)]
    show Except.ok (ModelState.mk
        (tailUnfrozen ((tailUnfrozen (m.blocks.length - n) 0 m.blocks).length - n) 0
          (tailUnfrozen (m.blocks.length - n) 0 m.blocks)) m.head) = _
    rw [tailUnfrozen_length _ m.blocks 0, tailUnfrozen_idem]
  · intro n2 h2
    have hl : (ModelState.mk (tailUnfrozen (m.blocks.length - n) 0 m.blocks) m.head).blocks.length
        = m.blocks.length := tailUnfrozen_length _ m.blocks 0
    rw [unfreeze_last_blocks_ok _ n2 (by rw [hl]; exact h2),
      unfreeze_last_blocks_ok m n2 h2]
    show Except.ok (ModelState.mk
        (tailUnfrozen ((tailUnfrozen (m.blocks.length - n) 0 m.blocks).length - n2) 0
          (tailUnfrozen (m.blocks.length - n) 0 m.blocks)) m.head) = _
    rw [tailUnfrozen_length _ m.blocks 0, tailUnfrozen_idem]

/-- Concrete three-block model with a partly trainable backbone and a trainable head. -/
def mC1 : ModelState := ⟨[[false, false], [true], [false]], [true, true]⟩

/-- Witness for C1 at the concrete state `mC1` with `n = 2`. -/
theorem claim_C1_witness : ∃ m', unfreeze_last_blocks mC1 2 = Except.ok m' ∧
    m'.blocks.length = mC1.blocks.length ∧
    (∀ i, (blockFlags m' i).length = (blockFlags mC1 i).length) ∧
    (∀ i j, i < mC1.blocks.length → j < (blockFlags mC1 i).length →
      (m'.trainAt i j = true ↔ mC1.blocks.length - 2 ≤ i)) ∧
    m'.head = mC1.head ∧
    (∀ j, j < m'.head.length → m'.headAt j = true) ∧
    unfreeze_last_blocks m' 2 = Except.ok m' ∧
    (∀ n2, n2 ≤ mC1.blocks.length →
      unfreeze_last_blocks m' n2 = unfreeze_last_blocks mC1 n2) :=
  claim_C1 mC1 2 (by decide) (by decide)

/-- Concrete eight-block model, all backbone blocks frozen, head trainable, mirroring the
EfficientNetB2 block count named in models.py docstrings. -/
def mC4 : ModelState := ⟨List.replicate 8 [false], [true]⟩

/-- C4 (failing input): on an 8-block model, `unfreeze_last_blocks(9)` does not fail fast:
Python's `range(-1, 8)` combined with negative indexing silently unfreezes every backbone
block and training proceeds, contradicting the required configuration error; only a count
greater than twice the block total happens to raise an `IndexError`. -/
theorem claim_C4 :
    unfreeze_last_blocks mC4 9 = Except.ok ⟨List.replicate 8 [true], [true]⟩ ∧
    unfreeze_last_blocks mC4 17 = Except.error "IndexError: index out of range" := by
  decide

/-- One freeze-policy operation of `FoodVisionModel` (models.py lines 67-102). -/
inductive FreezeOp where
  | freezeB : FreezeOp
  | unfreezeB : FreezeOp
  | unfreezeLast (n : Nat) : FreezeOp
deriving Repr, DecidableEq

/-- Execute one freeze-policy call on the model state. -/
def applyFreezeOp (m : ModelState) : FreezeOp → Except String ModelState
  | FreezeOp.freezeB => Except.ok (freeze_backbone m)
  | FreezeOp.unfreezeB => Except.ok (unfreeze_backbone m)
  | FreezeOp.unfreezeLast n => unfreeze_last_blocks m n

/-- Execute a sequence of freeze-policy calls on the model state. -/
def applyFreezeOps (m : ModelState) (ops : List FreezeOp) : Except String ModelState :=
  ops.foldlM applyFreezeOp m

theorem unfreeze_last_blocks_head (m : ModelState) (n : Nat) (m' : ModelState)
    (h : unfreeze_last_blocks m n = Except.ok m') : m'.head = m.head := by
  simp only [unfreeze_last_blocks] at h
  cases hp : pyFold (freeze_backbone m).blocks.length setBlockTrue
      (pyRangeList (((freeze_backbone m).blocks.length : Int) - (n : Int))
        ((freeze_backbone m).blocks.length : Int)) (freeze_backbone m).blocks with
  | ok bs =>
    rw [hp] at h
    simp only [Except.map] at h
    cases h
    rfl
  | error e =>
    rw [hp] at h
    simp only [Except.map] at h
    cases h

theorem applyFreezeOp_head (m : ModelState) (op : FreezeOp) (m' : ModelState)
    (h : applyFreezeOp m op = Except.ok m') : m'.head = m.head := by
  cases op with
  | freezeB => cases h; rfl
  | unfreezeB => cases h; rfl
  | unfreezeLast n => exact unfreeze_last_blocks_head m n m' h

theorem applyFreezeOps_head :
    ∀ (ops : List FreezeOp) (m m' : ModelState),
      applyFreezeOps m ops = Except.ok m' → m'.head = m.head := by
  intro ops
  induction ops with
  | nil =>
    intro m m' h
    cases h
    rfl
  | cons op ops ih =>
    intro m m' h
    simp only [applyFreezeOps, List.foldlM_cons] at h
    cases hop : applyFreezeOp m op with
    | ok m1 =>
      rw [hop, exceptOkBind] at h
      exact (ih m1 m' h).trans (applyFreezeOp_head m op m1 hop)
    | error e =>
      rw [hop] at h
      cases h

/-- C7: every sequence of freeze-policy operations (freeze_backbone, unfreeze_backbone,
unfreeze_last_blocks) leaves the classifier-head trainability flags unchanged; after
`freeze_backbone` every backbone parameter is frozen while the head flags are untouched
(so only the classifier remains trainable); `unfreeze_backbone` also leaves the head
untouched; and `freeze_backbone` is idempotent. -/
theorem claim_C7 :
    (∀ (m : ModelState) (ops : List FreezeOp) (m' : ModelState),
      applyFreezeOps m ops = Except.ok m' → m'.head = m.head) ∧
    (∀ (m : ModelState) (i j : Nat), (freeze_backbone m).trainAt i j = false) ∧
    (∀ (m : ModelState) (j : Nat), (freeze_backbone m).headAt j = m.headAt j) ∧
    (∀ (m : ModelState) (j : Nat), (unfreeze_backbone m).headAt j = m.headAt j) ∧
    (∀ (m : ModelState), freeze_backbone (freeze_backbone m) = freeze_backbone m) := by
  refine ⟨fun m ops m' h => applyFreezeOps_head ops m m' h, ?_, fun m j => rfl, fun m j => rfl, ?_⟩
  · intro m i j
    show ((((m.blocks.map (fun b => b.map (fun _ => false)))[i]?).getD [])[j]?).getD false = false
    rw [List.getElem?_map]
    cases m.blocks[i]? with
    | none => rfl
    | some b =>
      show ((b.map (fun _ => false))[j]?).getD false = false
      rw [List.getElem?_map]
      cases b[j]? <;> rfl
  · intro m
    show ModelState.mk ((m.blocks.map (fun b => b.map (fun _ => false))).map
        (fun b => b.map (fun _ => false))) m.head =
      ModelState.mk (m.blocks.map (fun b => b.map (fun _ => false))) m.head
    rw [List.map_map]
    have : ∀ b : List Bool,
        ((fun b : List Bool => b.map (fun _ => false)) ∘
          (fun b : List Bool => b.map (fun _ => false))) b = b.map (fun _ => false) := by
      intro b
      show (b.map (fun _ => false)).map (fun _ => false) = b.map (fun _ => false)
      rw [List.map_map]
      rfl
    rw [List.map_congr_left (fun b _ => this b)]

/-- Three-call sequence used to witness C7's head-invariance. -/
def opsC7 : List FreezeOp := [FreezeOp.unfreezeB, FreezeOp.unfreezeLast 1, FreezeOp.freezeB]

/-- Result of `opsC7` on `mC1`: the final freeze leaves only the head trainable. -/
def mC7res : ModelState := ⟨[[false, false], [false], [false]], [true, true]⟩

/-- Witness for C7: the concrete op sequence `opsC7` on `mC1` keeps the head flags. -/
theorem claim_C7_witness : mC7res.head = mC1.head :=
  claim_C7.1 mC1 opsC7 mC7res (by decide)

/-- Reference to a learnable parameter: `Sum.inl (i, j)` is parameter `j` of backbone
block `i`; `Sum.inr j` is parameter `j` of the classifier head. -/
abbrev ParamRef : Type := (Nat × Nat) ⊕ Nat

/-- A parameter group handed to the optimizer: parameter list, learning rate, name. -/
structure ParamGroup where
  params : List ParamRef
  lr : ℚ
  name : String
deriving Repr, DecidableEq

/-- The trainable parameters of backbone block `i`, in parameter order: the inner loop
`for param in self.backbone.features[i].parameters(): if param.requires_grad: append`. -/
def blockTrainableRefs (m : ModelState) (i : Nat) : List ParamRef :=
  ((List.range (blockFlags m i).length).filter (fun j => m.trainAt i j)).map
    (fun j => Sum.inl (i, j))

/-- The loop `for i in range(a, b): for param in self.backbone.features[i].parameters():
if param.requires_grad: append(param)`, with Python range and indexing semantics. -/
def collectTrainable (m : ModelState) (a b : Int) : Except String (List ParamRef) :=
  pyFold m.blocks.length (fun acc i => acc ++ blockTrainableRefs m i) (pyRangeList a b) []

/-- Trainable classifier parameters:
`[p for p in self.backbone.classifier.parameters() if p.requires_grad]`. -/
def classifierTrainableRefs (m : ModelState) : List ParamRef :=
  ((List.range m.head.length).filter (fun j => m.headAt j)).map (fun j => Sum.inr j)

/-- `FoodVisionModel.get_parameter_groups` (models.py lines 104-163): builds up to three
named groups (mid layers: blocks `[0, total-2)`; last blocks: `[total-2, total)`;
classifier), each containing only `requires_grad` parameters, appending a group only if
its parameter list is non-empty. -/
def get_parameter_groups (m : ModelState) (lr_classifier lr_last_blocks lr_mid_layers : ℚ) :
    Except String (List ParamGroup) := do
  let total : Int := (m.blocks.length : Int)
  let last_block_start : Int := total - 2
  let mid_params ← collectTrainable m 0 last_block_start
  let g1 : List ParamGroup :=
    if mid_params.isEmpty then []
    else [{ params := mid_params, lr := lr_mid_layers, name := "mid_layers" }]
  let last_block_params ← collectTrainable m last_block_start total
  let g2 : List ParamGroup :=
    g1 ++ (if last_block_params.isEmpty then []
      else [{ params := last_block_params, lr := lr_last_blocks, name := "last_blocks" }])
  let classifier_params := classifierTrainableRefs m
  let g3 : List ParamGroup :=
    g2 ++ (if classifier_params.isEmpty then []
      else [{ params := classifier_params, lr := lr_classifier, name := "classifier" }])
  return g3

/-- Parameters collected from the block-index window `[a, b)`. -/
def rangeRefs (m : ModelState) (a b : Nat) : List ParamRef :=
  (((List.range (b - a)).map (fun k => a + k)).map (blockTrainableRefs m)).flatten

/-- Number of occurrences of the parameter reference `r` in a parameter list. -/
def countRef : List ParamRef → ParamRef → Nat
  | [], _ => 0
  | x :: xs, r => (if x = r then 1 else 0) + countRef xs r

theorem countRef_append (l1 : List ParamRef) :
    ∀ (l2 : List ParamRef) (r : ParamRef),
      countRef (l1 ++ l2) r = countRef l1 r + countRef l2 r := by
  induction l1 with
  | nil => intro l2 r; simp [countRef]
  | cons x xs ih =>
    intro l2 r
    show (if x = r then 1 else 0) + countRef (xs ++ l2) r =
      ((if x = r then 1 else 0) + countRef xs r) + countRef l2 r
    rw [ih]
    omega

theorem countRef_eq_zero (r : ParamRef) :
    ∀ (l : List ParamRef), r ∉ l → countRef l r = 0 := by
  intro l
  induction l with
  | nil => intro _; rfl
  | cons x xs ih =>
    intro h
    have hx : ¬ (x = r) := fun hc => h (hc ▸ List.mem_cons_self x xs)
    simp only [countRef, if_neg hx, ih (fun hc => h (List.mem_cons_of_mem x hc))]

theorem countRef_eq_one (r : ParamRef) :
    ∀ (l : List ParamRef), l.Nodup → r ∈ l → countRef l r = 1 := by
  intro l
  induction l with
  | nil => intro _ h; cases h
  | cons x xs ih =>
    intro hnd hmem
    rcases List.mem_cons.mp hmem with h | h
    · show (if x = r then 1 else 0) + countRef xs r = 1
      rw [if_pos h.symm,
        countRef_eq_zero r xs (fun hc => (List.nodup_cons.mp hnd).1 (h ▸ hc))]
    · have hx : ¬ (x = r) := fun hc =>
        (List.nodup_cons.mp hnd).1 (by rw [hc]; exact h)
      show (if x = r then 1 else 0) + countRef xs r = 1
      rw [if_neg hx, ih (List.nodup_cons.mp hnd).2 h]

theorem foldl_append_eq {α β : Type} (f : α → List β) :
    ∀ (L : List α) (init : List β),
      L.foldl (fun acc x => acc ++ f x) init = init ++ (L.map f).flatten := by
  intro L
  induction L with
  | nil => intro init; simp
  | cons x xs ih =>
    intro init
    rw [List.foldl_cons, ih (init ++ f x), List.map_cons, List.flatten_cons,
      List.append_assoc]

theorem mem_rangeIdx (a b i : Nat) :
    i ∈ (List.range (b - a)).map (fun k => a + k) ↔ a ≤ i ∧ i < b := by
  constructor
  · intro hx
    rcases List.mem_map.mp hx with ⟨k, hk, rfl⟩
    have := List.mem_range.mp hk
    omega
  · intro hx
    exact List.mem_map.mpr ⟨i - a, List.mem_range.mpr (by omega), by omega⟩

theorem nodup_rangeIdx (a b : Nat) :
    ((List.range (b - a)).map (fun k => a + k)).Nodup :=
  (List.nodup_range _).map (fun x y h => by omega)

theorem collectTrainable_ok (m : ModelState) (a b : Nat) (ai bi : Int)
    (ha : ai = (a : Int)) (hb : bi = (b : Int)) (hble : b ≤ m.blocks.length) :
    collectTrainable m ai bi = Except.ok (rangeRefs m a b) := by
  subst ha hb
  unfold collectTrainable
  rw [pyRangeList_natCast a b]
  have hbound : ∀ n ∈ (List.range (b - a)).map (fun k => a + k), n < m.blocks.length := by
    intro n hn
    have := (mem_rangeIdx a b n).mp hn
    omega
  rw [pyFold_ok m.blocks.length _ _ hbound []]
  rw [foldl_append_eq]
  rfl

theorem mem_blockTrainableRefs (m : ModelState) (i0 : Nat) (r : ParamRef) :
    r ∈ blockTrainableRefs m i0 ↔
      ∃ j, r = Sum.inl (i0, j) ∧ j < (blockFlags m i0).length ∧ m.trainAt i0 j = true := by
  constructor
  · intro hr
    rcases List.mem_map.mp hr with ⟨j, hj, rfl⟩
    rcases List.mem_filter.mp hj with ⟨h1, h2⟩
    exact ⟨j, rfl, List.mem_range.mp h1, h2⟩
  · rintro ⟨j, rfl, h1, h2⟩
    exact List.mem_map.mpr ⟨j, List.mem_filter.mpr ⟨List.mem_range.mpr h1, h2⟩, rfl⟩

theorem nodup_blockTrainableRefs (m : ModelState) (i0 : Nat) :
    (blockTrainableRefs m i0).Nodup :=
  ((List.nodup_range _).filter _).map (fun a b hab => by simpa using hab)

theorem nodup_classifierTrainableRefs (m : ModelState) :
    (classifierTrainableRefs m).Nodup :=
  ((List.nodup_range _).filter _).map (fun a b hab => by simpa using hab)

theorem count_blockTrainableRefs_inl (m : ModelState) (i0 i j : Nat) :
    countRef (blockTrainableRefs m i0) (Sum.inl (i, j) : ParamRef) =
      if i = i0 ∧ j < (blockFlags m i).length ∧ m.trainAt i j = true then 1 else 0 := by
  by_cases h : i = i0 ∧ j < (blockFlags m i).length ∧ m.trainAt i j = true
  · obtain ⟨hi, hjl, hjt⟩ := h
    subst hi
    rw [if_pos ⟨rfl, hjl, hjt⟩]
    apply countRef_eq_one _ _ (nodup_blockTrainableRefs m i)
    exact (mem_blockTrainableRefs m i _).mpr ⟨j, rfl, hjl, hjt⟩
  · rw [if_neg h]
    apply countRef_eq_zero
    intro hmem
    rcases (mem_blockTrainableRefs m i0 _).mp hmem with ⟨j2, heq, h1, h2⟩
    have hii : i = i0 ∧ j = j2 := by
      have := Sum.inl.inj heq
      exact ⟨congrArg Prod.fst this, congrArg Prod.snd this⟩
    exact h ⟨hii.1, by rw [hii.1, hii.2]; exact h1, by rw [hii.1, hii.2]; exact h2⟩

theorem count_blockTrainableRefs_inr (m : ModelState) (i0 j : Nat) :
    countRef (blockTrainableRefs m i0) (Sum.inr j : ParamRef) = 0 := by
  apply countRef_eq_zero
  intro hmem
  rcases List.mem_map.mp hmem with ⟨j2, _, heq⟩
  exact Sum.noConfusion heq

theorem count_classifierTrainableRefs_inr (m : ModelState) (j : Nat) :
    countRef (classifierTrainableRefs m) (Sum.inr j : ParamRef) =
      if j < m.head.length ∧ m.headAt j = true then 1 else 0 := by
  by_cases hj : j < m.head.length ∧ m.headAt j = true
  · rw [if_pos hj]
    apply countRef_eq_one _ _ (nodup_classifierTrainableRefs m)
    exact List.mem_map.mpr ⟨j, List.mem_filter.mpr ⟨List.mem_range.mpr hj.1, hj.2⟩, rfl⟩
  · rw [if_neg hj]
    apply countRef_eq_zero
    intro hmem
    rcases List.mem_map.mp hmem with ⟨j2, hj2, heq⟩
    have : j2 = j := Sum.inr.inj heq
    subst this
    rcases List.mem_filter.mp hj2 with ⟨h1, h2⟩
    exact hj ⟨List.mem_range.mp h1, h2⟩

theorem count_classifierTrainableRefs_inl (m : ModelState) (i j : Nat) :
    countRef (classifierTrainableRefs m) (Sum.inl (i, j) : ParamRef) = 0 := by
  apply countRef_eq_zero
  intro hmem
  rcases List.mem_map.mp hmem with ⟨j2, _, heq⟩
  exact Sum.noConfusion heq

theorem count_flatten_blocks (m : ModelState) :
    ∀ (is : List Nat), is.Nodup → ∀ (i j : Nat),
      countRef ((is.map (blockTrainableRefs m)).flatten) (Sum.inl (i, j) : ParamRef) =
        if i ∈ is ∧ j < (blockFlags m i).length ∧ m.trainAt i j = true then 1 else 0 := by
  intro is
  induction is with
  | nil => intro _ i j; simp [countRef]
  | cons i0 is ih =>
    intro hnd i j
    have hnot : i0 ∉ is := (List.nodup_cons.mp hnd).1
    have hnd2 : is.Nodup := (List.nodup_cons.mp hnd).2
    simp only [List.map_cons, List.flatten_cons, countRef_append]
    rw [ih hnd2 i j, count_blockTrainableRefs_inl m i0 i j]
    by_cases hi : i = i0
    · subst hi
      by_cases hp : j < (blockFlags m i).length ∧ m.trainAt i j = true
      · rw [if_pos ⟨rfl, hp.1, hp.2⟩, if_neg (fun hc => hnot hc.1),
          if_pos ⟨List.mem_cons_self i is, hp.1, hp.2⟩]

      · rw [if_neg (fun hc => hp ⟨hc.2.1, hc.2.2⟩),
          if_neg (fun hc => hp ⟨hc.2.1, hc.2.2⟩),
          if_neg (fun hc => hp ⟨hc.2.1, hc.2.2⟩)]
    · rw [if_neg (fun hc => hi hc.1)]
      by_cases hmem : i ∈ is ∧ j < (blockFlags m i).length ∧ m.trainAt i j = true
      · rw [if_pos hmem,
          if_pos ⟨List.mem_cons_of_mem i0 hmem.1, hmem.2.1, hmem.2.2⟩]
      · rw [if_neg hmem,
          if_neg (fun hc =>
            hmem ⟨(List.mem_cons.mp hc.1).resolve_left hi, hc.2.1, hc.2.2⟩)]

theorem count_flatten_blocks_inr (m : ModelState) :
    ∀ (is : List Nat) (j : Nat),
      countRef ((is.map (blockTrainableRefs m)).flatten) (Sum.inr j : ParamRef) = 0 := by
  intro is
  induction is with
  | nil => intro j; simp [countRef]
  | cons i0 is ih =>
    intro j
    simp only [List.map_cons, List.flatten_cons, countRef_append]
    rw [ih j, count_blockTrainableRefs_inr]

theorem count_rangeRefs_inl (m : ModelState) (a b i j : Nat) :
    countRef (rangeRefs m a b) (Sum.inl (i, j) : ParamRef) =
      if (a ≤ i ∧ i < b) ∧ j < (blockFlags m i).length ∧ m.trainAt i j = true
      then 1 else 0 := by
  unfold rangeRefs
  rw [count_flatten_blocks m _ (nodup_rangeIdx a b) i j]
  by_cases h : (a ≤ i ∧ i < b) ∧ j < (blockFlags m i).length ∧ m.trainAt i j = true
  · rw [if_pos ⟨(mem_rangeIdx a b i).mpr h.1, h.2⟩, if_pos h]
  · rw [if_neg (fun hc => h ⟨(mem_rangeIdx a b i).mp hc.1, hc.2⟩), if_neg h]

theorem count_rangeRefs_inr (m : ModelState) (a b j : Nat) :
    countRef (rangeRefs m a b) (Sum.inr j : ParamRef) = 0 :=
  count_flatten_blocks_inr m _ j

theorem mem_rangeRefs (m : ModelState) (a b : Nat) (r : ParamRef) :
    r ∈ rangeRefs m a b ↔
      ∃ i j, r = Sum.inl (i, j) ∧ a ≤ i ∧ i < b ∧ j < (blockFlags m i).length ∧
        m.trainAt i j = true := by
  constructor
  · intro hr
    rcases List.mem_flatten.mp hr with ⟨l, hl, hrl⟩
    rcases List.mem_map.mp hl with ⟨i, hi, rfl⟩
    rcases List.mem_map.mp hrl with ⟨j, hj, rfl⟩
    rcases List.mem_filter.mp hj with ⟨hjr, hjt⟩
    exact ⟨i, j, rfl, ((mem_rangeIdx a b i).mp hi).1, ((mem_rangeIdx a b i).mp hi).2,
      List.mem_range.mp hjr, hjt⟩
  · rintro ⟨i, j, rfl, h1, h2, h3, h4⟩
    refine List.mem_flatten.mpr ⟨blockTrainableRefs m i,
      List.mem_map.mpr ⟨i, (mem_rangeIdx a b i).mpr ⟨h1, h2⟩, rfl⟩, ?_⟩
    exact List.mem_map.mpr ⟨j, List.mem_filter.mpr ⟨List.mem_range.mpr h3, h4⟩, rfl⟩

theorem mem_classifierTrainableRefs (m : ModelState) (r : ParamRef) :
    r ∈ classifierTrainableRefs m ↔
      ∃ j, r = Sum.inr j ∧ j < m.head.length ∧ m.headAt j = true := by
  constructor
  · intro hr
    rcases List.mem_map.mp hr with ⟨j, hj, rfl⟩
    rcases List.mem_filter.mp hj with ⟨h1, h2⟩
    exact ⟨j, rfl, List.mem_range.mp h1, h2⟩
  · rintro ⟨j, rfl, h1, h2⟩
    exact List.mem_map.mpr ⟨j, List.mem_filter.mpr ⟨List.mem_range.mpr h1, h2⟩, rfl⟩

theorem get_parameter_groups_ok (m : ModelState) (l1 l2 l3 : ℚ)
    (h2 : 2 ≤ m.blocks.length) :
    get_parameter_groups m l1 l2 l3 = Except.ok (
      ((if (rangeRefs m 0 (m.blocks.length - 2)).isEmpty then []
        else [{ params := rangeRefs m 0 (m.blocks.length - 2), lr := l3,
                name := "mid_layers" }]) ++
       (if (rangeRefs m (m.blocks.length - 2) m.blocks.length).isEmpty then []
        else [{ params := rangeRefs m (m.blocks.length - 2) m.blocks.length, lr := l2,
                name := "last_blocks" }])) ++
      (if (classifierTrainableRefs m).isEmpty then []
       else [{ params := classifierTrainableRefs m, lr := l1, name := "classifier" }])) := by
  have hmid := collectTrainable_ok m 0 (m.blocks.length - 2) 0
    ((m.blocks.length : Int) - 2) rfl (by omega) (by omega)
  have hlast := collectTrainable_ok m (m.blocks.length - 2) m.blocks.length
    ((m.blocks.length : Int) - 2) (m.blocks.length : Int) (by omega) rfl (by omega)
  simp only [get_parameter_groups, hmid, hlast, exceptOkBind]
  rfl

theorem flatten_ite_groups (P Q R : List ParamRef) (l1 l2 l3 : ℚ) :
    (((((if P.isEmpty then ([] : List ParamGroup)
          else [{ params := P, lr := l3, name := "mid_layers" }]) ++
         (if Q.isEmpty then ([] : List ParamGroup)
          else [{ params := Q, lr := l2, name := "last_blocks" }])) ++
        (if R.isEmpty then ([] : List ParamGroup)
         else [{ params := R, lr := l1, name := "classifier" }])).map
      (fun g => g.params)).flatten) = P ++ Q ++ R := by
  by_cases hp : P.isEmpty <;> by_cases hq : Q.isEmpty <;> by_cases hr : R.isEmpty <;>
    simp_all [List.isEmpty_iff]

theorem mem_ite_groups (P Q R : List ParamRef) (l1 l2 l3 : ℚ) (g : ParamGroup) :
    g ∈ (((if P.isEmpty then ([] : List ParamGroup)
           else [{ params := P, lr := l3, name := "mid_layers" }]) ++
          (if Q.isEmpty then ([] : List ParamGroup)
           else [{ params := Q, lr := l2, name := "last_blocks" }])) ++
         (if R.isEmpty then ([] : List ParamGroup)
          else [{ params := R, lr := l1, name := "classifier" }])) ↔
      ((g = { params := P, lr := l3, name := "mid_layers" } ∧ P ≠ []) ∨
       (g = { params := Q, lr := l2, name := "last_blocks" } ∧ Q ≠ []) ∨
       (g = { params := R, lr := l1, name := "classifier" } ∧ R ≠ [])) := by
  by_cases hp : P.isEmpty <;> by_cases hq : Q.isEmpty <;> by_cases hr : R.isEmpty <;>
    simp_all [List.isEmpty_iff]

/-- C6: for every trainability state of a model with at least two blocks,
`get_parameter_groups` succeeds, every returned group is non-empty (empty groups are
omitted), every group is one of mid_layers / last_blocks / classifier, the returned
groups partition the trainable parameters (each trainable backbone or head parameter
occurs exactly once across all groups, each frozen one zero times), the mid_layers group
only holds trainable parameters of blocks `[0, total-2)`, the last_blocks group only
holds trainable parameters of blocks `[total-2, total)`, and the classifier group only
holds trainable head parameters. -/
theorem claim_C6 (m : ModelState) (l1 l2 l3 : ℚ) (h2 : 2 ≤ m.blocks.length) :
    ∃ gs, get_parameter_groups m l1 l2 l3 = Except.ok gs ∧
      (∀ g ∈ gs, g.params ≠ []) ∧
      (∀ g ∈ gs, g.name = "mid_layers" ∨ g.name = "last_blocks" ∨ g.name = "classifier") ∧
      (∀ i j, i < m.blocks.length → j < (blockFlags m i).length →
        countRef ((gs.map (fun g => g.params)).flatten) (Sum.inl (i, j) : ParamRef) =
          if m.trainAt i j = true then 1 else 0) ∧
      (∀ j, j < m.head.length →
        countRef ((gs.map (fun g => g.params)).flatten) (Sum.inr j : ParamRef) =
          if m.headAt j = true then 1 else 0) ∧
      (∀ g ∈ gs, g.name = "mid_layers" →
        ∀ r ∈ g.params, ∃ i j, r = Sum.inl (i, j) ∧ i < m.blocks.length - 2 ∧
          m.trainAt i j = true) ∧
      (∀ g ∈ gs, g.name = "last_blocks" →
        ∀ r ∈ g.params, ∃ i j, r = Sum.inl (i, j) ∧ m.blocks.length - 2 ≤ i ∧
          i < m.blocks.length ∧ m.trainAt i j = true) ∧
      (∀ g ∈ gs, g.name = "classifier" →
        ∀ r ∈ g.params, ∃ j, r = Sum.inr j ∧ j < m.head.length ∧ m.headAt j = true) := by
  refine ⟨_, get_parameter_groups_ok m l1 l2 l3 h2, ?_, ?_, ?_, ?_, ?_, ?_, ?_⟩
  · intro g hg
    rcases (mem_ite_groups _ _ _ l1 l2 l3 g).mp hg with ⟨rfl, hne⟩ | ⟨rfl, hne⟩ | ⟨rfl, hne⟩ <;>
      exact hne
  · intro g hg
    rcases (mem_ite_groups _ _ _ l1 l2 l3 g).mp hg with ⟨rfl, _⟩ | ⟨rfl, _⟩ | ⟨rfl, _⟩
    · exact Or.inl rfl
    · exact Or.inr (Or.inl rfl)
    · exact Or.inr (Or.inr rfl)
  · intro i j hi hj
    rw [flatten_ite_groups, countRef_append, countRef_append,
      count_rangeRefs_inl, count_rangeRefs_inl, count_classifierTrainableRefs_inl]
    by_cases ht : m.trainAt i j = true
    · rw [if_pos ht]
      by_cases hlt : i < m.blocks.length - 2
      · rw [if_pos ⟨⟨Nat.zero_le i, hlt⟩, hj, ht⟩,
          if_neg (fun hc => by omega : ¬ ((m.blocks.length - 2 ≤ i ∧ i < m.blocks.length) ∧
            j < (blockFlags m i).length ∧ m.trainAt i j = true))]
      · rw [if_neg (fun hc => hlt hc.1.2),
          if_pos ⟨⟨by omega, hi⟩, hj, ht⟩]
    · rw [if_neg ht, if_neg (fun hc => ht hc.2.2), if_neg (fun hc => ht hc.2.2)]
  · intro j hj
    rw [flatten_ite_groups, countRef_append, countRef_append,
      count_rangeRefs_inr, count_rangeRefs_inr, count_classifierTrainableRefs_inr]
    by_cases hh : m.headAt j = true
    · rw [if_pos hh, if_pos ⟨hj, hh⟩]
    · rw [if_neg hh, if_neg (fun hc => hh hc.2)]
  · intro g hg hname r hr
    rcases (mem_ite_groups _ _ _ l1 l2 l3 g).mp hg with ⟨rfl, _⟩ | ⟨rfl, _⟩ | ⟨rfl, _⟩
    · rcases (mem_rangeRefs m 0 (m.blocks.length - 2) r).mp hr with ⟨i, j, rfl, _, hib, _, ht⟩
      exact ⟨i, j, rfl, hib, ht⟩
    · simp at hname
    · simp at hname
  · intro g hg hname r hr
    rcases (mem_ite_groups _ _ _ l1 l2 l3 g).mp hg with ⟨rfl, _⟩ | ⟨rfl, _⟩ | ⟨rfl, _⟩
    · simp at hname
    · rcases (mem_rangeRefs m (m.blocks.length - 2) m.blocks.length r).mp hr with
        ⟨i, j, rfl, hia, hib, _, ht⟩
      exact ⟨i, j, rfl, hia, hib, ht⟩
    · simp at hname
  · intro g hg hname r hr
    rcases (mem_ite_groups _ _ _ l1 l2 l3 g).mp hg with ⟨rfl, _⟩ | ⟨rfl, _⟩ | ⟨rfl, _⟩
    · simp at hname
    · simp at hname
    · exact (mem_classifierTrainableRefs m r).mp hr

/-- Witness for C6 at the concrete three-block state `mC1`. -/
theorem claim_C6_witness : ∃ gs, get_parameter_groups mC1 1 2 3 = Except.ok gs ∧
    (∀ g ∈ gs, g.params ≠ []) ∧
    (∀ g ∈ gs, g.name = "mid_layers" ∨ g.name = "last_blocks" ∨ g.name = "classifier") ∧
    (∀ i j, i < mC1.blocks.length → j < (blockFlags mC1 i).length →
      countRef ((gs.map (fun g => g.params)).flatten) (Sum.inl (i, j) : ParamRef) =
        if mC1.trainAt i j = true then 1 else 0) ∧
    (∀ j, j < mC1.head.length →
      countRef ((gs.map (fun g => g.params)).flatten) (Sum.inr j : ParamRef) =
        if mC1.headAt j = true then 1 else 0) ∧
    (∀ g ∈ gs, g.name = "mid_layers" →
      ∀ r ∈ g.params, ∃ i j, r = Sum.inl (i, j) ∧ i < mC1.blocks.length - 2 ∧
        mC1.trainAt i j = true) ∧
    (∀ g ∈ gs, g.name = "last_blocks" →
      ∀ r ∈ g.params, ∃ i j, r = Sum.inl (i, j) ∧ mC1.blocks.length - 2 ≤ i ∧
        i < mC1.blocks.length ∧ mC1.trainAt i j = true) ∧
    (∀ g ∈ gs, g.name = "classifier" →
      ∀ r ∈ g.params, ∃ j, r = Sum.inr j ∧ j < mC1.head.length ∧ mC1.headAt j = true) :=
  claim_C6 mC1 1 2 3 (by decide)

/-- Early-stopping configuration of `train` (train.py): `config.training.early_stopping`
and `config.training.patience`. -/
structure TrainConfig where
  early_stopping : Bool
  patience : Nat
deriving Repr, DecidableEq

/-- Checkpoint / early-stopping bookkeeping state of `train` (train.py lines 233-235). -/
structure TrainState where
  best_test_acc : ℚ
  best_epoch : Nat
  epochs_without_improvement : Nat
deriving Repr, DecidableEq

/-- Initial bookkeeping state: `best_test_acc = 0.0`, `best_epoch = 0`,
`epochs_without_improvement = 0`. -/
def initTrainState : TrainState :=
  { best_test_acc := 0, best_epoch := 0, epochs_without_improvement := 0 }

/-- Outcome of one epoch's bookkeeping: updated state, whether a checkpoint was written
this epoch, and whether the early-stopping break fires at this epoch's boundary. -/
structure EpochOutcome where
  stateAfter : TrainState
  saved : Bool
  stop : Bool
deriving Repr, DecidableEq

/-- The per-epoch controller of `train` (train.py lines 271-296): on strict improvement
(`test_acc > best_test_acc`) update best metric/epoch, reset the counter, and save a
checkpoint; otherwise increment `epochs_without_improvement`; then break out of the loop
when early stopping is enabled and `epochs_without_improvement >= patience`. -/
def checkpointStep (cfg : TrainConfig) (s : TrainState) (epoch : Nat) (test_acc : ℚ) :
    EpochOutcome :=
  let s2 :=
    if s.best_test_acc < test_acc then
      { best_test_acc := test_acc, best_epoch := epoch, epochs_without_improvement := 0 }
    else
      { s with epochs_without_improvement := s.epochs_without_improvement + 1 }
  { stateAfter := s2,
    saved := decide (s.best_test_acc < test_acc),
    stop := cfg.early_stopping && decide (cfg.patience ≤ s2.epochs_without_improvement) }

/-- Record of one executed epoch: the test accuracy seen and the controller outcome. -/
structure EpochRec where
  acc : ℚ
  outcome : EpochOutcome
deriving Repr, DecidableEq

/-- The epoch loop of `train` (train.py lines 243-296) restricted to its control state:
consumes the per-epoch test accuracies in order, runs the bookkeeping for each, and
breaks right after an epoch whose stop signal fires (that epoch's bookkeeping is already
complete when the break is taken). -/
def trainLoop (cfg : TrainConfig) : TrainState → Nat → List ℚ → List EpochRec
  | _, _, [] => []
  | s, e, a :: rest =>
    let r := checkpointStep cfg s e a
    { acc := a, outcome := r } ::
      (if r.stop then [] else trainLoop cfg r.stateAfter (e + 1) rest)

/-- The same epoch recursion without the early-stopping break (analysis device). -/
def runAll (cfg : TrainConfig) : TrainState → Nat → List ℚ → List EpochRec
  | _, _, [] => []
  | s, e, a :: rest =>
    let r := checkpointStep cfg s e a
    { acc := a, outcome := r } :: runAll cfg r.stateAfter (e + 1) rest

/-- Truncate an epoch-record trace right after the first record whose stop signal fires. -/
def cutAtStop : List EpochRec → List EpochRec
  | [] => []
  | r :: rest => r :: (if r.outcome.stop then [] else cutAtStop rest)

/-- Controller state after folding the bookkeeping over a prefix of accuracies. -/
def stepsState (cfg : TrainConfig) : TrainState → Nat → List ℚ → TrainState
  | s, _, [] => s
  | s, e, a :: rest => stepsState cfg (checkpointStep cfg s e a).stateAfter (e + 1) rest

/-- Best accuracy seen in the first `k` epochs of the run, with best initialised to 0. -/
def bestBefore (accs : List ℚ) (k : Nat) : ℚ := (accs.take k).foldl max 0

/-- Epoch `k` (0-based) strictly improves on the best seen so far. -/
def improvesAt (accs : List ℚ) (k : Nat) : Bool :=
  decide (bestBefore accs k < (accs[k]?).getD 0)

/-- Number of consecutive non-improving epochs ending at epoch `k` (0-based). -/
def consecNoImprove (accs : List ℚ) : Nat → Nat
  | 0 => if improvesAt accs 0 then 0 else 1
  | k + 1 => if improvesAt accs (k + 1) then 0 else consecNoImprove accs k + 1

theorem max_eq_ite (b a : ℚ) : max b a = if b < a then a else b := by
  rcases lt_or_ge b a with h | h
  · rw [if_pos h, max_eq_right (le_of_lt h)]
  · rw [if_neg (not_lt.mpr h), max_eq_left h]

theorem checkpointStep_fields (cfg : TrainConfig) (s : TrainState) (e : Nat) (a : ℚ) :
    (checkpointStep cfg s e a).stateAfter.best_test_acc = max s.best_test_acc a ∧
    (checkpointStep cfg s e a).stateAfter.epochs_without_improvement =
      (if s.best_test_acc < a then 0 else s.epochs_without_improvement + 1) ∧
    (checkpointStep cfg s e a).saved = decide (s.best_test_acc < a) ∧
    (checkpointStep cfg s e a).stop = (cfg.early_stopping &&
      decide (cfg.patience ≤ (checkpointStep cfg s e a).stateAfter.epochs_without_improvement)) := by
  refine ⟨?_, ?_, rfl, rfl⟩
  · show (if s.best_test_acc < a then
        ({ best_test_acc := a, best_epoch := e, epochs_without_improvement := 0 } :
          TrainState)
      else { s with epochs_without_improvement :=
        s.epochs_without_improvement + 1 }).best_test_acc = max s.best_test_acc a
    by_cases h : s.best_test_acc < a
    · rw [if_pos h]
      exact (max_eq_right (le_of_lt h)).symm
    · rw [if_neg h]
      exact (max_eq_left (not_lt.mp h)).symm
  · show (if s.best_test_acc < a then
        ({ best_test_acc := a, best_epoch := e, epochs_without_improvement := 0 } :
          TrainState)
      else { s with epochs_without_improvement :=
        s.epochs_without_improvement + 1 }).epochs_without_improvement =
      if s.best_test_acc < a then 0 else s.epochs_without_improvement + 1
    by_cases h : s.best_test_acc < a
    · rw [if_pos h, if_pos h]
    · rw [if_neg h, if_neg h]

theorem trainLoop_eq_cut (cfg : TrainConfig) :
    ∀ (accs : List ℚ) (s : TrainState) (e : Nat),
      trainLoop cfg s e accs = cutAtStop (runAll cfg s e accs) := by
  intro accs
  induction accs with
  | nil => intro s e; rfl
  | cons a rest ih =>
    intro s e
    show ({ acc := a, outcome := checkpointStep cfg s e a } : EpochRec) ::
        (if (checkpointStep cfg s e a).stop then []
         else trainLoop cfg (checkpointStep cfg s e a).stateAfter (e + 1) rest) =
      ({ acc := a, outcome := checkpointStep cfg s e a } : EpochRec) ::
        (if (checkpointStep cfg s e a).stop then []
         else cutAtStop (runAll cfg (checkpointStep cfg s e a).stateAfter (e + 1) rest))
    by_cases h : (checkpointStep cfg s e a).stop
    · rw [if_pos h, if_pos h]
    · rw [if_neg h, if_neg h, ih]

theorem runAll_length (cfg : TrainConfig) :
    ∀ (accs : List ℚ) (s : TrainState) (e : Nat),
      (runAll cfg s e accs).length = accs.length := by
  intro accs
  induction accs with
  | nil => intro s e; rfl
  | cons a rest ih =>
    intro s e
    show (runAll cfg (checkpointStep cfg s e a).stateAfter (e + 1) rest).length + 1 = _
    rw [ih]
    rfl

theorem stepsState_cons (cfg : TrainConfig) (s : TrainState) (e : Nat) (a : ℚ)
    (l : List ℚ) :
    stepsState cfg s e (a :: l) =
      stepsState cfg (checkpointStep cfg s e a).stateAfter (e + 1) l := rfl

theorem stepsState_singleton (cfg : TrainConfig) (s : TrainState) (e : Nat) (x : ℚ) :
    stepsState cfg s e [x] = (checkpointStep cfg s e x).stateAfter := rfl

theorem runAll_getElem? (cfg : TrainConfig) :
    ∀ (accs : List ℚ) (s : TrainState) (e k : Nat),
      (runAll cfg s e accs)[k]? = (accs[k]?).map (fun a =>
        { acc := a,
          outcome := checkpointStep cfg (stepsState cfg s e (accs.take k)) (e + k) a }) := by
  intro accs
  induction accs with
  | nil => intro s e k; simp [runAll]
  | cons a rest ih =>
    intro s e k
    cases k with
    | zero =>
      simp [runAll, stepsState]
    | succ k =>
      simp only [runAll, List.getElem?_cons_succ]
      rw [ih _ _ k, List.take_succ_cons, stepsState_cons,
        show e + (k + 1) = e + 1 + k from by omega]

theorem stepsState_append (cfg : TrainConfig) :
    ∀ (l1 l2 : List ℚ) (s : TrainState) (e : Nat),
      stepsState cfg s e (l1 ++ l2) =
        stepsState cfg (stepsState cfg s e l1) (e + l1.length) l2 := by
  intro l1
  induction l1 with
  | nil => intro l2 s e; simp [stepsState]
  | cons a l1 ih =>
    intro l2 s e
    rw [List.cons_append, stepsState_cons, ih, stepsState_cons]
    rw [show e + 1 + l1.length = e + (a :: l1).length from by simp; omega]

theorem bestBefore_succ (accs : List ℚ) (k : Nat) (hk : k < accs.length) :
    bestBefore accs (k + 1) = max (bestBefore accs k) (accs[k]) := by
  unfold bestBefore
  rw [List.take_succ, List.getElem?_eq_getElem hk]
  show ((accs.take k) ++ [accs[k]]).foldl max 0 = _
  rw [List.foldl_append]
  rfl

theorem stepsState_spec (cfg : TrainConfig) (accs : List ℚ) :
    ∀ k, (hk : k < accs.length) →
      (stepsState cfg initTrainState 1 (accs.take (k + 1))).best_test_acc =
        bestBefore accs (k + 1) ∧
      (stepsState cfg initTrainState 1 (accs.take (k + 1))).epochs_without_improvement =
        consecNoImprove accs k := by
  intro k
  induction k with
  | zero =>
    intro hk
    rw [List.take_succ, List.getElem?_eq_getElem hk]
    simp only [List.take_zero, Option.toList_some, List.nil_append]
    rw [stepsState_singleton]
    have hfields := checkpointStep_fields cfg initTrainState 1 (accs[0])
    have himp : improvesAt accs 0 =
        decide (initTrainState.best_test_acc < accs[0]) := by
      unfold improvesAt
      rw [List.getElem?_eq_getElem hk]
      rfl
    constructor
    · rw [hfields.1, bestBefore_succ accs 0 hk]
      rfl
    · rw [hfields.2.1]
      show _ = if improvesAt accs 0 then 0 else 1
      rw [himp]
      by_cases h : initTrainState.best_test_acc < accs[0]
      · rw [if_pos h, if_pos (by simp [h])]
      · rw [if_neg h, if_neg (by simp [h])]
        rfl
  | succ k ih =>
    intro hk
    have hk2 : k < accs.length := by omega
    have ih2 := ih hk2
    rw [List.take_succ, List.getElem?_eq_getElem hk]
    simp only [Option.toList_some]
    rw [stepsState_append cfg (accs.take (k + 1)) [accs[k + 1]] initTrainState 1]
    have hlen : (accs.take (k + 1)).length = k + 1 := by
      rw [List.length_take]
      omega
    rw [hlen, stepsState_singleton]
    have hfields := checkpointStep_fields cfg
      (stepsState cfg initTrainState 1 (accs.take (k + 1))) (1 + (k + 1)) (accs[k + 1])
    have himp : improvesAt accs (k + 1) =
        decide ((stepsState cfg initTrainState 1 (accs.take (k + 1))).best_test_acc <
          accs[k + 1]) := by
      unfold improvesAt
      rw [List.getElem?_eq_getElem hk, ih2.1]
      rfl
    constructor
    · rw [hfields.1, ih2.1, bestBefore_succ accs (k + 1) hk]
    · rw [hfields.2.1]
      show _ = if improvesAt accs (k + 1) then 0 else consecNoImprove accs k + 1
      rw [himp, ih2.2]
      by_cases h : (stepsState cfg initTrainState 1 (accs.take (k + 1))).best_test_acc <
          accs[k + 1]
      · rw [if_pos h, if_pos (by simp [h])]
      · rw [if_neg h, if_neg (by simp [h])]

theorem stepsState_best_take (cfg : TrainConfig) (accs : List ℚ) (k : Nat)
    (hk : k ≤ accs.length) :
    (stepsState cfg initTrainState 1 (accs.take k)).best_test_acc = bestBefore accs k := by
  cases k with
  | zero => rfl
  | succ k => exact (stepsState_spec cfg accs k (by omega)).1

theorem boolNotTrue {b : Bool} (h : ¬ b = true) : b = false := by
  cases b
  · rfl
  · exact absurd rfl h

theorem step_state_eq (cfg : TrainConfig) (accs : List ℚ) (k : Nat) (hk : k < accs.length) :
    (checkpointStep cfg (stepsState cfg initTrainState 1 (accs.take k)) (1 + k)
      (accs[k])).stateAfter = stepsState cfg initTrainState 1 (accs.take (k + 1)) := by
  rw [List.take_succ, List.getElem?_eq_getElem hk]
  simp only [Option.toList_some]
  rw [stepsState_append cfg (accs.take k) [accs[k]] initTrainState 1]
  have hlen : (accs.take k).length = k := by
    rw [List.length_take]
    omega
  rw [hlen, stepsState_singleton]

theorem runAll_rec (cfg : TrainConfig) (accs : List ℚ) (k : Nat) (hk : k < accs.length) :
    (runAll cfg initTrainState 1 accs)[k]? = some
      { acc := accs[k],
        outcome := checkpointStep cfg (stepsState cfg initTrainState 1 (accs.take k))
          (1 + k) (accs[k]) } := by
  rw [runAll_getElem? cfg accs initTrainState 1 k, List.getElem?_eq_getElem hk]
  rfl

theorem runAll_saved (cfg : TrainConfig) (accs : List ℚ) (k : Nat) (hk : k < accs.length) :
    ((runAll cfg initTrainState 1 accs)[k]?).map (fun r => r.outcome.saved) =
      some (decide (bestBefore accs k < (accs[k]?).getD 0)) := by
  rw [runAll_rec cfg accs k hk]
  show some (checkpointStep cfg (stepsState cfg initTrainState 1 (accs.take k)) (1 + k)
      (accs[k])).saved = _
  rw [(checkpointStep_fields cfg (stepsState cfg initTrainState 1 (accs.take k)) (1 + k)
      (accs[k])).2.2.1,
    stepsState_best_take cfg accs k (le_of_lt hk),
    List.getElem?_eq_getElem hk]
  rfl

theorem runAll_stop (cfg : TrainConfig) (accs : List ℚ) (k : Nat) (hk : k < accs.length) :
    ((runAll cfg initTrainState 1 accs)[k]?).map (fun r => r.outcome.stop) =
      some (cfg.early_stopping && decide (cfg.patience ≤ consecNoImprove accs k)) := by
  rw [runAll_rec cfg accs k hk]
  show some (checkpointStep cfg (stepsState cfg initTrainState 1 (accs.take k)) (1 + k)
      (accs[k])).stop = _
  rw [(checkpointStep_fields cfg (stepsState cfg initTrainState 1 (accs.take k)) (1 + k)
      (accs[k])).2.2.2,
    step_state_eq cfg accs k hk,
    (stepsState_spec cfg accs k hk).2]

theorem cutAtStop_length_le : ∀ (L : List EpochRec), (cutAtStop L).length ≤ L.length := by
  intro L
  induction L with
  | nil => exact Nat.le_refl 0
  | cons r rest ih =>
    show (r :: (if r.outcome.stop then [] else cutAtStop rest)).length ≤ rest.length + 1
    by_cases h : r.outcome.stop
    · rw [if_pos h]
      simp
    · rw [if_neg h]
      simp only [List.length_cons]
      omega

theorem cutAtStop_getElem? : ∀ (L : List EpochRec) (k : Nat),
    k < (cutAtStop L).length → (cutAtStop L)[k]? = L[k]? := by
  intro L
  induction L with
  | nil => intro k hk; exact absurd hk (by simp [cutAtStop])
  | cons r rest ih =>
    intro k hk
    have hcut : cutAtStop (r :: rest) =
        r :: (if r.outcome.stop then [] else cutAtStop rest) := rfl
    rw [hcut] at hk ⊢
    cases k with
    | zero => simp only [List.getElem?_cons_zero]
    | succ k =>
      simp only [List.getElem?_cons_succ]
      by_cases h : r.outcome.stop
      · rw [if_pos h] at hk
        simp only [List.length_cons, List.length_nil] at hk
        omega
      · rw [if_neg h] at hk
        simp only [List.length_cons] at hk
        rw [if_neg h]
        exact ih k (by omega)

theorem cutAtStop_nonlast : ∀ (L : List EpochRec) (k : Nat),
    k + 1 < (cutAtStop L).length →
    ∃ r, (cutAtStop L)[k]? = some r ∧ r.outcome.stop = false := by
  intro L
  induction L with
  | nil => intro k hk; exact absurd hk (by simp [cutAtStop])
  | cons r rest ih =>
    intro k hk
    have hcut : cutAtStop (r :: rest) =
        r :: (if r.outcome.stop then [] else cutAtStop rest) := rfl
    rw [hcut] at hk ⊢
    by_cases h : r.outcome.stop
    · rw [if_pos h] at hk
      simp only [List.length_cons, List.length_nil] at hk
      omega
    · rw [if_neg h] at hk ⊢
      cases k with
      | zero => exact ⟨r, by simp only [List.getElem?_cons_zero], boolNotTrue h⟩
      | succ k =>
        simp only [List.length_cons] at hk
        obtain ⟨r2, hr2, hs2⟩ := ih k (by omega)
        refine ⟨r2, ?_, hs2⟩
        rw [List.getElem?_cons_succ]
        exact hr2

theorem cutAtStop_stop_last : ∀ (L : List EpochRec) (k : Nat) (r : EpochRec),
    (cutAtStop L)[k]? = some r → r.outcome.stop = true →
    k + 1 = (cutAtStop L).length := by
  intro L
  induction L with
  | nil => intro k r hk _; rw [show cutAtStop [] = [] from rfl] at hk; cases hk
  | cons r0 rest ih =>
    intro k r hk hst
    have hcut : cutAtStop (r0 :: rest) =
        r0 :: (if r0.outcome.stop then [] else cutAtStop rest) := rfl
    rw [hcut] at hk ⊢
    by_cases h : r0.outcome.stop
    · rw [if_pos h] at hk ⊢
      cases k with
      | zero => rfl
      | succ k =>
        rw [List.getElem?_cons_succ] at hk
        rw [List.getElem?_nil] at hk
        cases hk
    · rw [if_neg h] at hk ⊢
      cases k with
      | zero =>
        rw [List.getElem?_cons_zero] at hk
        have h0 : r0 = r := Option.some.inj hk
        rw [h0] at h
        exact absurd hst h
      | succ k =>
        rw [List.getElem?_cons_succ] at hk
        have := ih k r hk hst
        simp only [List.length_cons]
        omega

theorem cutAtStop_all_false : ∀ (L : List EpochRec),
    (∀ (k : Nat) (r : EpochRec), L[k]? = some r → r.outcome.stop = false) →
      cutAtStop L = L := by
  intro L
  induction L with
  | nil => intro _; rfl
  | cons r rest ih =>
    intro h
    have h0 : r.outcome.stop = false := h 0 r (by simp only [List.getElem?_cons_zero])
    show r :: (if r.outcome.stop then [] else cutAtStop rest) = r :: rest
    rw [h0, if_neg Bool.false_ne_true,
      ih (fun k r2 hk2 => h (k + 1) r2 (by rw [List.getElem?_cons_succ]; exact hk2))]

theorem consecNoImprove_zero (accs : List ℚ) :
    consecNoImprove accs 0 = if improvesAt accs 0 then 0 else 1 := rfl

theorem consecNoImprove_succ (accs : List ℚ) (k : Nat) :
    consecNoImprove accs (k + 1) =
      if improvesAt accs (k + 1) then 0 else consecNoImprove accs k + 1 := rfl

/-- C2: in every training run, the checkpoint flag at an executed epoch is exactly
whether that epoch's test accuracy strictly exceeds the best value seen so far (best
initialised to 0); step-wise, a checkpoint is written iff the accuracy strictly exceeds
the stored best; and on a tie no checkpoint is written, best metric and best epoch stay
unchanged, and the no-improvement counter is incremented rather than reset. -/
theorem claim_C2 (cfg : TrainConfig) (accs : List ℚ) :
    initTrainState.best_test_acc = 0 ∧
    (∀ k, k < (trainLoop cfg initTrainState 1 accs).length →
      ((trainLoop cfg initTrainState 1 accs)[k]?).map (fun r => r.outcome.saved) =
        some (decide (bestBefore accs k < (accs[k]?).getD 0))) ∧
    (∀ (s : TrainState) (e : Nat) (a : ℚ),
      (checkpointStep cfg s e a).saved = true ↔ s.best_test_acc < a) ∧
    (∀ (s : TrainState) (e : Nat) (a : ℚ), a = s.best_test_acc →
      (checkpointStep cfg s e a).saved = false ∧
      (checkpointStep cfg s e a).stateAfter.best_test_acc = s.best_test_acc ∧
      (checkpointStep cfg s e a).stateAfter.best_epoch = s.best_epoch ∧
      (checkpointStep cfg s e a).stateAfter.epochs_without_improvement =
        s.epochs_without_improvement + 1) := by
  refine ⟨rfl, ?_, ?_, ?_⟩
  · intro k hk
    rw [trainLoop_eq_cut] at hk ⊢
    have hk2 : k < accs.length := by
      have h1 := cutAtStop_length_le (runAll cfg initTrainState 1 accs)
      have h2 := runAll_length cfg accs initTrainState 1
      omega
    rw [cutAtStop_getElem? _ k hk]
    exact runAll_saved cfg accs k hk2
  · intro s e a
    show decide (s.best_test_acc < a) = true ↔ _
    constructor
    · exact of_decide_eq_true
    · exact decide_eq_true
  · intro s e a ha
    have hnot : ¬ s.best_test_acc < a := fun hc => lt_irrefl _ (ha ▸ hc)
    have hstate : (checkpointStep cfg s e a).stateAfter =
        { s with epochs_without_improvement := s.epochs_without_improvement + 1 } := by
      show (if s.best_test_acc < a then
          ({ best_test_acc := a, best_epoch := e, epochs_without_improvement := 0 } :
            TrainState)
        else { s with epochs_without_improvement :=
          s.epochs_without_improvement + 1 }) = _
      rw [if_neg hnot]
    exact ⟨decide_eq_false hnot, by rw [hstate], by rw [hstate], by rw [hstate]⟩

/-- Configuration used by the C2 witness (early stopping off, patience 2). -/
def cfgC2 : TrainConfig := { early_stopping := false, patience := 2 }

/-- Accuracy trace used by the C2 witness. -/
def accsC2 : List ℚ := [70, 72, 72]

/-- Bookkeeping state used by the C2 tie witness. -/
def sC2 : TrainState := { best_test_acc := 72, best_epoch := 2, epochs_without_improvement := 0 }

/-- Witness for C2 at a concrete accuracy trace and a concrete tie. -/
theorem claim_C2_witness :
    ((trainLoop cfgC2 initTrainState 1 accsC2)[1]?).map (fun r => r.outcome.saved) =
      some (decide (bestBefore accsC2 1 < (accsC2[1]?).getD 0)) ∧
    ((checkpointStep cfgC2 sC2 3 72).saved = false ∧
      (checkpointStep cfgC2 sC2 3 72).stateAfter.best_test_acc = sC2.best_test_acc ∧
      (checkpointStep cfgC2 sC2 3 72).stateAfter.best_epoch = sC2.best_epoch ∧
      (checkpointStep cfgC2 sC2 3 72).stateAfter.epochs_without_improvement =
        sC2.epochs_without_improvement + 1) :=
  ⟨(claim_C2 cfgC2 accsC2).2.1 1 (by decide),
   (claim_C2 cfgC2 accsC2).2.2.2 sC2 3 72 (by decide)⟩

/-- C3: with early stopping enabled and patience at least 1, every executed epoch's stop
signal is exactly whether the count of consecutive non-improving epochs has reached
patience; the loop never stops before that count reaches patience (every non-final
executed epoch has count below patience); when an executed epoch signals stop, the count
at that epoch equals patience exactly and that epoch is the last one executed (its
bookkeeping completed); the loop never runs past the accuracy trace; and when the count
never reaches patience the loop runs the full epoch budget. -/
theorem claim_C3 (cfg : TrainConfig) (accs : List ℚ)
    (hes : cfg.early_stopping = true) (hp : 1 ≤ cfg.patience) :
    (∀ k, k < (trainLoop cfg initTrainState 1 accs).length →
      ((trainLoop cfg initTrainState 1 accs)[k]?).map (fun r => r.outcome.stop) =
        some (decide (cfg.patience ≤ consecNoImprove accs k))) ∧
    (∀ k, k + 1 < (trainLoop cfg initTrainState 1 accs).length →
      consecNoImprove accs k < cfg.patience) ∧
    (∀ (k : Nat) (r : EpochRec), (trainLoop cfg initTrainState 1 accs)[k]? = some r →
      r.outcome.stop = true → consecNoImprove accs k = cfg.patience ∧
        k + 1 = (trainLoop cfg initTrainState 1 accs).length) ∧
    (trainLoop cfg initTrainState 1 accs).length ≤ accs.length ∧
    ((∀ k, k < accs.length → consecNoImprove accs k < cfg.patience) →
      (trainLoop cfg initTrainState 1 accs).length = accs.length) := by
  have hstopval : ∀ k, k < accs.length →
      ((runAll cfg initTrainState 1 accs)[k]?).map (fun r => r.outcome.stop) =
        some (decide (cfg.patience ≤ consecNoImprove accs k)) := by
    intro k hk
    rw [runAll_stop cfg accs k hk, hes, Bool.true_and]
  have hlenL : (trainLoop cfg initTrainState 1 accs).length ≤ accs.length := by
    rw [trainLoop_eq_cut]
    have h1 := cutAtStop_length_le (runAll cfg initTrainState 1 accs)
    have h2 := runAll_length cfg accs initTrainState 1
    omega
  have hA : ∀ k, k < (trainLoop cfg initTrainState 1 accs).length →
      ((trainLoop cfg initTrainState 1 accs)[k]?).map (fun r => r.outcome.stop) =
        some (decide (cfg.patience ≤ consecNoImprove accs k)) := by
    intro k hk
    have hk2 : k < accs.length := by omega
    rw [trainLoop_eq_cut] at hk ⊢
    rw [cutAtStop_getElem? _ k hk]
    exact hstopval k hk2
  have hB : ∀ k, k + 1 < (trainLoop cfg initTrainState 1 accs).length →
      consecNoImprove accs k < cfg.patience := by
    intro k hk
    have hk1 : k < (trainLoop cfg initTrainState 1 accs).length := by omega
    have hA2 := hA k hk1
    rw [trainLoop_eq_cut] at hA2 hk
    obtain ⟨r, hr, hs⟩ := cutAtStop_nonlast _ k hk
    rw [hr] at hA2
    have hval : r.outcome.stop = decide (cfg.patience ≤ consecNoImprove accs k) :=
      Option.some.inj hA2
    rw [hs] at hval
    have hnot : ¬ (cfg.patience ≤ consecNoImprove accs k) := by
      intro hc
      rw [decide_eq_true hc] at hval
      exact Bool.noConfusion hval
    omega
  refine ⟨hA, hB, ?_, hlenL, ?_⟩
  · intro k r hkr hstop
    have hklen : k < (trainLoop cfg initTrainState 1 accs).length := by
      by_contra hco
      rw [List.getElem?_eq_none (by omega)] at hkr
      cases hkr
    have hlast : k + 1 = (trainLoop cfg initTrainState 1 accs).length := by
      rw [trainLoop_eq_cut] at hkr ⊢
      exact cutAtStop_stop_last _ k r hkr hstop
    have hge : cfg.patience ≤ consecNoImprove accs k := by
      have hA2 := hA k hklen
      rw [hkr] at hA2
      have h3 : r.outcome.stop = decide (cfg.patience ≤ consecNoImprove accs k) :=
        Option.some.inj hA2
      rw [hstop] at h3
      by_contra hc
      rw [decide_eq_false hc] at h3
      exact Bool.noConfusion h3
    refine ⟨?_, hlast⟩
    rcases Nat.lt_or_ge cfg.patience (consecNoImprove accs k) with hgt | hle2
    · exfalso
      cases k with
      | zero =>
        have hle1 : consecNoImprove accs 0 ≤ 1 := by
          rw [consecNoImprove_zero]
          by_cases h : improvesAt accs 0 = true
          · rw [if_pos h]
            omega
          · rw [if_neg h]
        omega
      | succ k2 =>
        have hne : consecNoImprove accs (k2 + 1) ≠ 0 := by omega
        have heq : consecNoImprove accs (k2 + 1) = consecNoImprove accs k2 + 1 := by
          rw [consecNoImprove_succ]
          by_cases h : improvesAt accs (k2 + 1) = true
          · exact absurd (by rw [consecNoImprove_succ, if_pos h] :
              consecNoImprove accs (k2 + 1) = 0) hne
          · rw [if_neg h]
        have hk2lt : k2 + 1 < (trainLoop cfg initTrainState 1 accs).length := by omega
        have := hB k2 hk2lt
        omega
    · omega
  · intro hall
    have hfn : ∀ (k : Nat) (r : EpochRec),
        (runAll cfg initTrainState 1 accs)[k]? = some r → r.outcome.stop = false := by
      intro k r hkr
      have hk2 : k < accs.length := by
        by_contra hco
        rw [List.getElem?_eq_none
          (by rw [runAll_length cfg accs initTrainState 1]; omega)] at hkr
        cases hkr
      have h1 := hstopval k hk2
      rw [hkr] at h1
      have h2 := Option.some.inj h1
      rw [decide_eq_false (by have := hall k hk2; omega :
        ¬ (cfg.patience ≤ consecNoImprove accs k))] at h2
      exact h2
    rw [trainLoop_eq_cut, cutAtStop_all_false _ hfn, runAll_length]

/-- Configuration used by the C3 witness (early stopping on, patience 3). -/
def cfgC3 : TrainConfig := { early_stopping := true, patience := 3 }

/-- Accuracy trace of the specification's early-stopping scenario: best at epoch 2,
then three consecutive non-improving epochs. -/
def accsC3 : List ℚ := [70, 72, 71, 71, 71]

/-- Witness for C3 on the concrete scenario: epoch 5 (index 4) carries the stop signal,
the loop stops exactly there, index 3 is still below patience, and the loop is bounded
by the trace. -/
theorem claim_C3_witness :
    ((trainLoop cfgC3 initTrainState 1 accsC3)[4]?).map (fun r => r.outcome.stop) =
      some (decide (cfgC3.patience ≤ consecNoImprove accsC3 4)) ∧
    consecNoImprove accsC3 3 < cfgC3.patience ∧
    (trainLoop cfgC3 initTrainState 1 accsC3).length ≤ accsC3.length :=
  ⟨(claim_C3 cfgC3 accsC3 rfl (by decide)).1 4 (by decide),
   (claim_C3 cfgC3 accsC3 rfl (by decide)).2.1 3 (by decide),
   (claim_C3 cfgC3 accsC3 rfl (by decide)).2.2.2.1⟩

/-- One batch as realised during an epoch: the model's logits per sample, the integer
ground-truth labels, and the mean cross-entropy loss value returned by the criterion
(opaque numeric collaborators of train.py). -/
structure Batch where
  outputs : List (List ℚ)
  labels : List Nat
  loss : ℚ
deriving Repr, DecidableEq

/-- Index of the first maximal entry (`outputs.max(1)` index semantics). -/
def argmaxIdx : List ℚ → Nat
  | [] => 0
  | [_] => 0
  | x :: y :: rest =>
    let j := argmaxIdx (y :: rest)
    if x < (y :: rest).getD j 0 then j + 1 else 0

/-- Correct predictions in one batch: `predicted.eq(labels).sum().item()` where
`_, predicted = outputs.max(1)`. -/
def batchCorrect (b : Batch) : Nat :=
  ((b.outputs.map argmaxIdx).zip b.labels).countP (fun pr => decide (pr.1 = pr.2))

/-- Metric accumulation of `train_one_epoch` (train.py lines 54-91): running loss sum of
per-batch `loss.item()`, running correct count, running sample count; epoch loss is the
running loss over the number of batches, epoch accuracy is `100 * correct / total`. -/
def train_one_epoch (batches : List Batch) : ℚ × ℚ :=
  let st := batches.foldl
    (fun (st : ℚ × Nat × Nat) b =>
      (st.1 + b.loss, st.2.1 + batchCorrect b, st.2.2 + b.labels.length))
    (0, 0, 0)
  (st.1 / (batches.length : ℚ), 100 * (st.2.1 : ℚ) / (st.2.2 : ℚ))

/-- Metric accumulation of `evaluate` (train.py lines 94-122): textually the same
arithmetic as `train_one_epoch`, on a read-only pass. -/
def evaluate (batches : List Batch) : ℚ × ℚ :=
  let st := batches.foldl
    (fun (st : ℚ × Nat × Nat) b =>
      (st.1 + b.loss, st.2.1 + batchCorrect b, st.2.2 + b.labels.length))
    (0, 0, 0)
  (st.1 / (batches.length : ℚ), 100 * (st.2.1 : ℚ) / (st.2.2 : ℚ))

theorem metricFold (batches : List Batch) : ∀ (l : ℚ) (c t : Nat),
    batches.foldl
      (fun (st : ℚ × Nat × Nat) b =>
        (st.1 + b.loss, st.2.1 + batchCorrect b, st.2.2 + b.labels.length)) (l, c, t) =
    (l + (batches.map (fun b => b.loss)).sum, c + (batches.map batchCorrect).sum,
      t + (batches.map (fun b => b.labels.length)).sum) := by
  induction batches with
  | nil => intro l c t; simp
  | cons b bs ih =>
    intro l c t
    rw [List.foldl_cons, ih]
    simp only [List.map_cons, List.sum_cons, Prod.mk.injEq]
    refine ⟨by ring, by omega, by omega⟩

/-- C8: for every epoch of the training pass and of the evaluation pass, the reported
epoch loss is the unweighted arithmetic mean of the per-batch mean losses (sum of batch
losses over number of batches, not weighted by batch size) and the reported epoch
accuracy is 100 times the count of top-1 argmax predictions matching the integer labels
over the total number of samples; the evaluation pass computes exactly the same
aggregates. -/
theorem claim_C8 (batches : List Batch) (hb : batches ≠ [])
    (hs : (batches.map (fun b => b.labels.length)).sum ≠ 0) :
    train_one_epoch batches =
      ((batches.map (fun b => b.loss)).sum / (batches.length : ℚ),
       100 * (((batches.map (fun b =>
           ((b.outputs.map argmaxIdx).zip b.labels).countP
             (fun pr => decide (pr.1 = pr.2)))).sum : Nat) : ℚ) /
         (((batches.map (fun b => b.labels.length)).sum : Nat) : ℚ)) ∧
    evaluate batches = train_one_epoch batches := by
  constructor
  · unfold train_one_epoch
    rw [metricFold batches 0 0 0]
    simp only [zero_add]
    rfl
  · rfl

/-- Batches used by the C8 witness: two batches with distinct sizes and losses. -/
def batchesC8 : List Batch :=
  [{ outputs := [[1, 2], [3, 0]], labels := [1, 0], loss := 1/2 },
   { outputs := [[0, 5]], labels := [0], loss := 3/2 }]

/-- Witness for C8 on the concrete batches. -/
theorem claim_C8_witness :
    train_one_epoch batchesC8 =
      ((batchesC8.map (fun b => b.loss)).sum / (batchesC8.length : ℚ),
       100 * (((batchesC8.map (fun b =>
           ((b.outputs.map argmaxIdx).zip b.labels).countP
             (fun pr => decide (pr.1 = pr.2)))).sum : Nat) : ℚ) /
         (((batchesC8.map (fun b => b.labels.length)).sum : Nat) : ℚ)) ∧
    evaluate batchesC8 = train_one_epoch batchesC8 :=
  claim_C8 batchesC8 (by decide) (by decide)

/-- Process-wide randomness and convolution-backend state touched by `set_seed`
(train.py lines 24-37): the Python, NumPy, Torch and CUDA RNG states and the two cuDNN
flags. -/
structure GlobalState where
  random_state : Nat
  numpy_state : Nat
  torch_state : Nat
  cuda_state : Nat
  cudnn_deterministic : Bool
  cudnn_benchmark : Bool
deriving Repr, DecidableEq

/-- `set_seed` (train.py lines 24-37): seeds `random`, `numpy`, `torch.manual_seed` and
`torch.cuda.manual_seed_all` from the same seed; with `deterministic=True` it also
forces `cudnn.deterministic = True` and `cudnn.benchmark = False`, otherwise it only
sets `cudnn.benchmark = True`. -/
def set_seed (seed : Nat) (deterministic : Bool) (g : GlobalState) : GlobalState :=
  let g1 := { g with
    random_state := seed
    numpy_state := seed
    torch_state := seed
    cuda_state := seed }
  if deterministic then
    { g1 with cudnn_deterministic := true, cudnn_benchmark := false }
  else
    { g1 with cudnn_benchmark := true }

/-- C9: with the determinism flag set, `set_seed` overwrites every randomness source and
both cuDNN flags, so the resulting global state is independent of whatever state either
run started from; hence any training run whose behaviour is a function of the seeded
global state (identical configuration, identical data) produces identical per-epoch
loss/accuracy sequences across two independent runs with the same seed. -/
theorem claim_C9 :
    (∀ (seed : Nat) (g1 g2 : GlobalState),
      set_seed seed true g1 = set_seed seed true g2) ∧
    (∀ (seed : Nat) (g1 g2 : GlobalState) (run : GlobalState → List (ℚ × ℚ)),
      run (set_seed seed true g1) = run (set_seed seed true g2)) := by
  have h : ∀ (seed : Nat) (g : GlobalState), set_seed seed true g =
      { random_state := seed, numpy_state := seed, torch_state := seed,
        cuda_state := seed, cudnn_deterministic := true, cudnn_benchmark := false } := by
    intro seed g
    rfl
  exact ⟨fun seed g1 g2 => (h seed g1).trans (h seed g2).symm,
    fun seed g1 g2 run => by rw [h seed g1, h seed g2]⟩

/-- The three data loaders returned by `create_dataloaders` (data.py line 190), in
return order `(train_loader, test_loader, val_loader)` as destructured at
train.py line 168; each yields the realised batches of a given epoch. -/
structure Loaders where
  train_loader : Nat → List Batch
  test_loader : Nat → List Batch
  val_loader : Nat → List Batch

/-- Observable outcome of a training run: controller state, per-epoch train and test
history (train.py lines 226-263), the sequence of checkpoint writes (epoch and test
accuracy at each `torch.save`, train.py lines 277-286), and the final epoch counter. -/
structure LoopState where
  ts : TrainState
  histTrain : List (ℚ × ℚ)
  histTest : List (ℚ × ℚ)
  saved : List (Nat × ℚ)
  lastEpoch : Nat
deriving Repr, DecidableEq

/-- The epoch loop body of `train` (train.py lines 243-298): per epoch, train on the
train loader, evaluate on the test loader, append both to the history, run the
checkpoint/early-stopping bookkeeping on the test accuracy, and break after the current
epoch when the stop signal fires.  The validation loader is carried but never consulted,
exactly as in the source. -/
def trainEpochs (cfg : TrainConfig) (loaders : Loaders) : LoopState → Nat → Nat → LoopState
  | st, _, 0 => st
  | st, e, rem + 1 =>
    let tr := train_one_epoch (loaders.train_loader e)
    let te2 := evaluate (loaders.test_loader e)
    let r := checkpointStep cfg st.ts e te2.2
    let st2 : LoopState :=
      { ts := r.stateAfter,
        histTrain := st.histTrain ++ [tr],
        histTest := st.histTest ++ [te2],
        saved := if r.saved then st.saved ++ [(e, te2.2)] else st.saved,
        lastEpoch := e }
    if r.stop then st2 else trainEpochs cfg loaders st2 (e + 1) rem

/-- `train` (train.py lines 125-337) restricted to its training-loop observables: runs
the epoch loop from epoch 1 with fresh bookkeeping over the `epochs` budget. -/
def train (cfg : TrainConfig) (epochs : Nat) (loaders : Loaders) : LoopState :=
  trainEpochs cfg loaders
    { ts := initTrainState, histTrain := [], histTest := [], saved := [], lastEpoch := 0 }
    1 epochs

theorem trainEpochs_loaders (cfg : TrainConfig) (L1 L2 : Loaders)
    (htr : L1.train_loader = L2.train_loader) (hte : L1.test_loader = L2.test_loader) :
    ∀ (rem : Nat) (st : LoopState) (e : Nat),
      trainEpochs cfg L1 st e rem = trainEpochs cfg L2 st e rem := by
  intro rem
  induction rem with
  | zero => intro st e; rfl
  | succ rem ih =>
    intro st e
    simp only [trainEpochs, htr, hte, ih]

/-- C10: the training loop never reads the validation loader (the third loader returned
by `create_dataloaders`): two runs that differ only in the contents of the validation
split produce identical history records, identical checkpoint writes, and identical
final metrics. -/
theorem claim_C10 (cfg : TrainConfig) (epochs : Nat) (tl te v1 v2 : Nat → List Batch) :
    train cfg epochs { train_loader := tl, test_loader := te, val_loader := v1 } =
      train cfg epochs { train_loader := tl, test_loader := te, val_loader := v2 } := by
  unfold train
  exact trainEpochs_loaders cfg
    { train_loader := tl, test_loader := te, val_loader := v1 }
    { train_loader := tl, test_loader := te, val_loader := v2 } rfl rfl epochs _ 1

/-- A primitive file-system operation observable during checkpoint persistence: open a
file truncating its contents, append one serialized chunk, or atomically rename one
file over another. -/
inductive SaveOp where
  | openTrunc (f : String) : SaveOp
  | writeChunk (f : String) (c : Nat) : SaveOp
  | rename (src dst : String) : SaveOp
deriving Repr, DecidableEq

/-- Effect of one operation on the file system (file name to chunk contents). -/
def applySaveOp (fs : String → List Nat) : SaveOp → String → List Nat
  | SaveOp.openTrunc f => fun g => if g = f then [] else fs g
  | SaveOp.writeChunk f c => fun g => if g = f then fs f ++ [c] else fs g
  | SaveOp.rename src dst => fun g => if g = dst then fs src
      else if g = src then [] else fs g

/-- Effect of an operation sequence; any prefix of it is an observable interruption
point. -/
def applySaveOps (fs : String → List Nat) (ops : List SaveOp) : String → List Nat :=
  ops.foldl applySaveOp fs

/-- The write sequence of `torch.save(checkpoint, checkpoint_path)` as invoked by
`train` (train.py lines 277-286): the destination file itself is opened with truncation
and the serialized chunks are streamed into it — no temporary file, no rename. -/
def torchSaveOps (path : String) (data : List Nat) : List SaveOp :=
  SaveOp.openTrunc path :: data.map (SaveOp.writeChunk path)

/-- Modelled from the spec: the write-to-temporary-then-atomic-replace discipline that
spec sections 3 and 7 require for checkpoint persistence (write the full checkpoint to a
temporary file, then atomically rename it over the destination); this discipline is
absent from src/src/train.py, which calls `torch.save` directly on the destination. -/
def atomicSaveOps (path tmp : String) (data : List Nat) : List SaveOp :=
  (SaveOp.openTrunc tmp :: data.map (SaveOp.writeChunk tmp)) ++ [SaveOp.rename tmp path]

/-- Checkpoint destination used by `train`: `output_dir / "best_model.pth"`. -/
def bestModelPath : String := "best_model.pth"

/-- File system holding a previously saved best checkpoint at the destination. -/
def fsPrev : String → List Nat := fun g => if g = bestModelPath then [1, 2] else []

theorem applySaveOps_append (l1 : List SaveOp) :
    ∀ (l2 : List SaveOp) (fs : String → List Nat),
      applySaveOps fs (l1 ++ l2) = applySaveOps (applySaveOps fs l1) l2 := by
  intro l2 fs
  unfold applySaveOps
  rw [List.foldl_append]

theorem applyWrites_self (data : List Nat) :
    ∀ (fs : String → List Nat) (f : String),
      applySaveOps fs (data.map (SaveOp.writeChunk f)) f = fs f ++ data := by
  induction data with
  | nil => intro fs f; simp [applySaveOps]
  | cons c data ih =>
    intro fs f
    show applySaveOps (applySaveOp fs (SaveOp.writeChunk f c)) (data.map (SaveOp.writeChunk f)) f
      = fs f ++ (c :: data)
    rw [ih]
    show (if f = f then fs f ++ [c] else fs f) ++ data = fs f ++ (c :: data)
    rw [if_pos rfl, List.append_assoc]
    rfl

theorem applyWrites_other (data : List Nat) :
    ∀ (fs : String → List Nat) (f g : String), g ≠ f →
      applySaveOps fs (data.map (SaveOp.writeChunk f)) g = fs g := by
  induction data with
  | nil => intro fs f g _; rfl
  | cons c data ih =>
    intro fs f g hg
    show applySaveOps (applySaveOp fs (SaveOp.writeChunk f c)) (data.map (SaveOp.writeChunk f)) g
      = fs g
    rw [ih _ f g hg]
    show (if g = f then fs f ++ [c] else fs g) = fs g
    rw [if_neg hg]

/-- C5 counterexample: the claim that checkpoint persistence uses
write-to-temporary-then-atomic-replace (so the destination is never observable partially
written and the previous best checkpoint survives an interrupted write) is false for the
code: interrupting `torch.save` right after it opens `best_model.pth` leaves the
destination empty — neither the previous checkpoint `[1, 2]` nor the new one `[3, 4]`. -/
theorem claim_C5_counterexample :
    fsPrev bestModelPath = [1, 2] ∧
    applySaveOps fsPrev ((torchSaveOps bestModelPath [3, 4]).take 1) bestModelPath = [] ∧
    applySaveOps fsPrev (torchSaveOps bestModelPath [3, 4]) bestModelPath = [3, 4] ∧
    ([] : List Nat) ≠ [1, 2] ∧ ([] : List Nat) ≠ [3, 4] := by
  decide

/-- C5 amended: `train` writes the checkpoint with `torch.save` directly to
`best_model.pth` (truncate-then-stream, no temporary file and no atomic rename): a
completed write leaves exactly the new checkpoint at the destination, but the
interruption point right after opening leaves the destination empty, destroying the
previous best checkpoint; the temp-then-rename discipline the spec demands would instead
keep the destination equal to the old or the new checkpoint at every interruption
point.  (A failed write raises out of `train`, which installs no handler, so the error
is run-terminating.) -/
theorem claim_C5_amended (fs : String → List Nat) (path tmp : String) (data : List Nat)
    (hne : path ≠ tmp) :
    applySaveOps fs (torchSaveOps path data) path = data ∧
    applySaveOps fs ((torchSaveOps path data).take 1) path = [] ∧
    (∀ k, applySaveOps fs ((atomicSaveOps path tmp data).take k) path = fs path ∨
      applySaveOps fs ((atomicSaveOps path tmp data).take k) path = data) := by
  refine ⟨?_, ?_, ?_⟩
  · show applySaveOps (applySaveOp fs (SaveOp.openTrunc path))
      (data.map (SaveOp.writeChunk path)) path = data
    rw [applyWrites_self data _ path]
    show (if path = path then [] else fs path) ++ data = data
    rw [if_pos rfl]
    rfl
  · show applySaveOps fs (SaveOp.openTrunc path :: (data.map (SaveOp.writeChunk path)).take 0) path = []
    show applySaveOps (applySaveOp fs (SaveOp.openTrunc path)) [] path = []
    show (if path = path then [] else fs path) = []
    rw [if_pos rfl]
  · intro k
    cases k with
    | zero => exact Or.inl rfl
    | succ j =>
      have hstep : applySaveOps fs ((atomicSaveOps path tmp data).take (j + 1)) path =
          applySaveOps (applySaveOp fs (SaveOp.openTrunc tmp))
            ((data.map (SaveOp.writeChunk tmp) ++ [SaveOp.rename tmp path]).take j) path := rfl
      rw [hstep]
      have hfs1 : applySaveOp fs (SaveOp.openTrunc tmp) path = fs path := by
        show (if path = tmp then [] else fs path) = fs path
        rw [if_neg hne]
      by_cases hj : j ≤ data.length
      · left
        rw [List.take_append_of_le_length (by rw [List.length_map]; exact hj)]
        rw [← List.map_take]
        rw [applyWrites_other _ _ tmp path hne]
        exact hfs1
      · right
        rw [List.take_of_length_le (by simp; omega)]
        rw [applySaveOps_append]
        have htmp : applySaveOps (applySaveOp fs (SaveOp.openTrunc tmp))
            (data.map (SaveOp.writeChunk tmp)) tmp =
            applySaveOp fs (SaveOp.openTrunc tmp) tmp ++ data :=
          applyWrites_self data _ tmp
        show applySaveOp (applySaveOps (applySaveOp fs (SaveOp.openTrunc tmp))
            (data.map (SaveOp.writeChunk tmp))) (SaveOp.rename tmp path) path = data
        show (if path = path then applySaveOps (applySaveOp fs (SaveOp.openTrunc tmp))
            (data.map (SaveOp.writeChunk tmp)) tmp
          else _) = data
        rw [if_pos rfl, htmp]
        show (if tmp = tmp then [] else fs tmp) ++ data = data
        rw [if_pos rfl]
        rfl

/-- Witness for the amended C5 at the concrete destination, temp name and data. -/
theorem claim_C5_witness :
    applySaveOps fsPrev (torchSaveOps bestModelPath [3, 4]) bestModelPath = [3, 4] ∧
    (applySaveOps fsPrev ((atomicSaveOps bestModelPath "best_model.pth.tmp" [3, 4]).take 2)
        bestModelPath = fsPrev bestModelPath ∨
      applySaveOps fsPrev ((atomicSaveOps bestModelPath "best_model.pth.tmp" [3, 4]).take 2)
        bestModelPath = [3, 4]) :=
  ⟨(claim_C5_amended fsPrev bestModelPath "best_model.pth.tmp" [3, 4] (by decide)).1,
   (claim_C5_amended fsPrev bestModelPath "best_model.pth.tmp" [3, 4] (by decide)).2.2 2⟩
